import Mathlib

/-!
Shallow embedding of the document-formatting core of `cmd/format/k8s.go`
(the `mm` repository): the protected-region scanner, the three formatting
rules (spacing, punctuation, linebreaks) and the rule dispatcher
`applyFormattingRules`, together with proofs checking the specification's
claims about them.

Modelling conventions, used throughout:
* Go strings are UTF-8 byte strings; we model a text as a `List Char`
  (its sequence of runes) and compute byte offsets explicitly with
  `Char.utf8Size`, since the Go code mixes byte offsets (`len`,
  `strings.Index`, region bounds) with rune indices (`[]rune`).
* `strings.ReplaceAll` is only ever called with single-rune arguments in
  this code, where it is exactly a character-wise map.
* The regular expressions in the source are all star-free or of the simple
  shapes `X*Y` / class adjacency; each is embedded as the explicit scanner
  it denotes (leftmost-first, non-overlapping, as implemented by Go's
  `regexp` package), documented at each definition.
-/

namespace MM

/-- Go `isChinese` (k8s.go:835): a rune in U+4E00..U+9FFF. -/
def isChinese (c : Char) : Bool :=
  0x4e00 ≤ c.toNat && c.toNat ≤ 0x9fff

/-- The character class `[一-龯]` used by the spacing and punctuation
regexes (k8s.go:437,441,509,515): `一` is U+4E00 and `龯` is U+9FAF,
so this is the strictly narrower range U+4E00..U+9FAF (not U+9FFF). -/
def inCjkRange (c : Char) : Bool :=
  0x4e00 ≤ c.toNat && c.toNat ≤ 0x9faf

/-- The regex class `[a-zA-Z0-9]` (k8s.go:437,441), by scalar value:
`a`..`z` is 0x61..0x7A, `A`..`Z` is 0x41..0x5A, `0`..`9` is 0x30..0x39. -/
def isAsciiAlnum (c : Char) : Bool :=
  (0x61 ≤ c.toNat && c.toNat ≤ 0x7a) || (0x41 ≤ c.toNat && c.toNat ≤ 0x5a) ||
    (0x30 ≤ c.toNat && c.toNat ≤ 0x39)

/-- The regex class `\d` = `[0-9]` (scalar values 0x30..0x39). -/
def isDigitChar (c : Char) : Bool :=
  0x30 ≤ c.toNat && c.toNat ≤ 0x39

/-- Go regexp's Perl class `\s` = `[\t\n\f\r ]`. -/
def isRegexSpace (c : Char) : Bool :=
  c = '\t' || c = '\n' || c = '\x0c' || c = '\r' || c = ' '

/-- The regex class `\w` = `[0-9A-Za-z_]`. -/
def isWordChar (c : Char) : Bool :=
  isAsciiAlnum c || c = '_'

/-- Go `unicode.IsSpace`: White_Space property, used by `strings.TrimSpace`. -/
def goIsSpace (c : Char) : Bool :=
  let n := c.toNat
  (9 ≤ n && n ≤ 13) || n = 32 || n = 0x85 || n = 0xa0 || n = 0x1680 ||
    (0x2000 ≤ n && n ≤ 0x200a) || n = 0x2028 || n = 0x2029 || n = 0x202f ||
    n = 0x205f || n = 0x3000

/-- `strings.TrimSpace`: drop White_Space runes from both ends. -/
def trimSpace (l : List Char) : List Char :=
  ((l.dropWhile goIsSpace).reverse.dropWhile goIsSpace).reverse

/-- Byte length of a rune sequence: Go `len(string)`. -/
def byteLen (l : List Char) : Nat :=
  (l.map Char.utf8Size).sum

/-- The UTF-8 encoding of one rune, as byte values. -/
def utf8Bytes (c : Char) : List Nat :=
  let n := c.toNat
  if n < 0x80 then [n]
  else if n < 0x800 then [0xc0 + n / 0x40, 0x80 + n % 0x40]
  else if n < 0x10000 then
    [0xe0 + n / 0x1000, 0x80 + (n / 0x40) % 0x40, 0x80 + n % 0x40]
  else
    [0xf0 + n / 0x40000, 0x80 + (n / 0x1000) % 0x40,
      0x80 + (n / 0x40) % 0x40, 0x80 + n % 0x40]

/-- The byte string underlying a text: Go `[]byte(line)`. -/
def textBytes (l : List Char) : List Nat :=
  l.foldr (fun c acc => utf8Bytes c ++ acc) []

/-- `strings.Split(content, "\n")`. -/
def splitNl : List Char → List (List Char)
  | [] => [[]]
  | c :: r =>
    if c = '\n' then [] :: splitNl r
    else
      match splitNl r with
      | [] => [[c]]
      | l :: ls => (c :: l) :: ls

/-- `strings.Join(lines, "\n")`. -/
def joinNl : List (List Char) → List Char
  | [] => []
  | [l] => l
  | l :: ls => l ++ '\n' :: joinNl ls

/-- Whether `pat` is a prefix of `l`: Go `strings.HasPrefix`. -/
def listLeads : List Char → List Char → Bool
  | [], _ => true
  | _ :: _, [] => false
  | p :: ps, c :: cs => p = c && listLeads ps cs

/-- Whether `pat` occurs as a contiguous substring of `l`:
Go `strings.Contains(l, pat)`.  (All patterns passed in this code start
with an ASCII rune, so byte-level and rune-level occurrence coincide.) -/
def containsSub : List Char → List Char → Bool
  | [], pat => listLeads pat []
  | c :: cs, pat => listLeads pat (c :: cs) || containsSub cs pat

/-- Byte offset of the first occurrence of `pat` in `l`, starting the
count at `pos`: Go `strings.Index` (only consulted under a
`strings.Contains` guard in the source, hence the `Option`). -/
def idxOfSub : List Char → List Char → Nat → Option Nat
  | [], pat, pos => if listLeads pat [] then some pos else none
  | c :: cs, pat, pos =>
    if listLeads pat (c :: cs) then some pos
    else idxOfSub cs pat (pos + c.utf8Size)

/-- Go struct `protectedRegion` (k8s.go:228): byte offsets `start`
(inclusive) and `stop` (exclusive; named `end` in Go, a Lean keyword),
and the kind tag. -/
structure protectedRegion where
  start : Nat
  stop : Nat
  regionType : String
deriving DecidableEq, Repr

/-- Go struct `changeInfo` (k8s.go:80). -/
structure changeInfo where
  line : Nat
  rule : String
  description : String
  before : List Char
  after : List Char
deriving DecidableEq, Repr

/-- Scanner for `findInlineCodeRegions`' loop (k8s.go:334-348): toggling
backtick pairs; `pos` is the absolute byte offset of the current rune,
`inCode`/`codeStart` the loop state. -/
def inlineCodeScan : List Char → Nat → Bool → Nat → List protectedRegion
  | [], _, _, _ => []
  | c :: cs, pos, inCode, codeStart =>
    if c = '\x60' then
      if !inCode then inlineCodeScan cs (pos + c.utf8Size) true pos
      else
        { start := codeStart, stop := pos + 1, regionType := "inline_code" } ::
          inlineCodeScan cs (pos + c.utf8Size) false codeStart
    else inlineCodeScan cs (pos + c.utf8Size) inCode codeStart

/-- Go `findInlineCodeRegions` (k8s.go:330). -/
def findInlineCodeRegions (line : List Char) (lineStart : Nat) : List protectedRegion :=
  inlineCodeScan line lineStart false 0

/-- One attempted match, at the head of `l`, of a shortcode pattern of the
shape `opn [^bad]* cls` (with `cls` beginning with `bad`), e.g.
`\{\{<[^>]*>\}\}`.  Since `[^bad]*` cannot cross a `bad` rune, Go's
leftmost-first semantics admit exactly one candidate: everything up to the
first `bad`, which must then start `cls`.  Returns the match's byte length
and the remainder after it. -/
def tagMatchTail (bad : Char) (cls : List Char) : List Char → Nat → Option (Nat × List Char)
  | [], _ => none
  | c :: cs, acc =>
    if c = bad then
      if listLeads cls (c :: cs) then some (acc + byteLen cls, (c :: cs).drop cls.length)
      else none
    else tagMatchTail bad cls cs (acc + c.utf8Size)

/-- Whether the pattern `opn [^bad]* cls` matches at the head of `l`. -/
def tagMatchAt (l opn : List Char) (bad : Char) (cls : List Char) : Option (Nat × List Char) :=
  if listLeads opn l then tagMatchTail bad cls (l.drop opn.length) (byteLen opn)
  else none

/-- All matches of `opn [^bad]* cls` in a line, leftmost-first and
non-overlapping, with absolute byte offsets: Go
`regexp.FindAllStringIndex(line, -1)` for these patterns.  The fuel
argument only bounds the recursion; it is called with `l.length + 1`,
which the scan (consuming at least one rune per step) never exhausts. -/
def findTagAll (opn : List Char) (bad : Char) (cls : List Char) :
    Nat → List Char → Nat → List protectedRegion
  | 0, _, _ => []
  | _ + 1, [], _ => []
  | fuel + 1, c :: cs, pos =>
    match tagMatchAt (c :: cs) opn bad cls with
    | some (blen, rest) =>
      { start := pos, stop := pos + blen, regionType := "hugo_shortcode" } ::
        findTagAll opn bad cls fuel rest (pos + blen)
    | none => findTagAll opn bad cls fuel cs (pos + c.utf8Size)

/-- Go `findHugoShortcodeRegions` (k8s.go:352): the four patterns
`\{\{<[^>]*>\}\}`, `\{\{%[^%]*%\}\}`, `\{\{</[^>]*>\}\}`,
`\{\{%/[^%]*%\}\}`, each scanned independently, results appended in
that order. -/
def findHugoShortcodeRegions (line : List Char) (lineStart : Nat) : List protectedRegion :=
  findTagAll (("\x7b\x7b<").data) '>' ((">\x7d\x7d").data) (line.length + 1) line lineStart ++
    findTagAll (("\x7b\x7b%").data) '%' (("%\x7d\x7d").data) (line.length + 1) line lineStart ++
    findTagAll (("\x7b\x7b</").data) '>' ((">\x7d\x7d").data) (line.length + 1) line lineStart ++
    findTagAll (("\x7b\x7b%/").data) '%' (("%\x7d\x7d").data) (line.length + 1) line lineStart

/-- The line-by-line state machine of `identifyProtectedRegions`
(k8s.go:245-319).  Arguments after the line list: current byte position,
`inCodeBlock`, `inHtmlComment`, `inHugoShortcode`, `codeBlockStart`,
`commentStart`, `hugoStart`.  Regions are emitted in the source's append
order. -/
def scanLines : List (List Char) → Nat → Bool → Bool → Bool → Nat → Nat → Nat →
    List protectedRegion
  | [], _, _, _, _, _, _, _ => []
  | line :: rest, pos, inCB, inHC, inHS, cbStart, cmStart, hgStart =>
    let bl := byteLen line
    let fence := listLeads (("```").data) (trimSpace line)
    if fence && !inCB then
      -- opening fence: set state, and `if inCodeBlock` skips the rest of the line
      scanLines rest (pos + bl + 1) true inHC inHS pos cmStart hgStart
    else if !fence && inCB then
      -- inside an open code block: no other detection runs
      scanLines rest (pos + bl + 1) true inHC inHS cbStart cmStart hgStart
    else
      -- either a closing fence (emit the block, inCodeBlock := false, keep
      -- processing this same line) or an ordinary line
      let closedCB : List protectedRegion :=
        if fence && inCB then [{ start := cbStart, stop := pos + bl, regionType := "code_block" }]
        else []
      let hsOpen :=
        (containsSub line (("\x7b\x7b</*").data) || containsSub line (("\x7b\x7b%/*").data)) && !inHS
      let inHS1 := if hsOpen then true else inHS
      let hgStart1 := if hsOpen then pos else hgStart
      let hsClose :=
        (containsSub line (("*/\x7d\x7d").data) || containsSub line (("*/%\x7d\x7d").data)) && inHS1
      let hugoRegs : List protectedRegion :=
        if hsClose then [{ start := hgStart1, stop := pos + bl, regionType := "hugo_shortcode" }]
        else []
      let inHS2 := if hsClose then false else inHS1
      let hcOpen := containsSub line (("<!--").data) && !inHC
      let inHC1 := if hcOpen then true else inHC
      let cmStart1 := if hcOpen then pos + (idxOfSub line (("<!--").data) 0).getD 0 else cmStart
      let hcClose := containsSub line (("-->").data) && inHC1
      let htmlRegs : List protectedRegion :=
        if hcClose then
          [{ start := cmStart1, stop := pos + (idxOfSub line (("-->").data) 0).getD 0 + 3,
             regionType := "html_comment" }]
        else []
      let inHC2 := if hcClose then false else inHC1
      let lineRegs : List protectedRegion :=
        if inHC2 || inHS2 then
          [{ start := pos, stop := pos + bl,
             regionType := if inHC2 then "html_comment" else "hugo_shortcode" }]
        else
          findInlineCodeRegions line pos ++ findHugoShortcodeRegions line pos
      closedCB ++ hugoRegs ++ htmlRegs ++ lineRegs ++
        scanLines rest (pos + bl + 1) false inHC2 inHS2 cbStart cmStart1 hgStart1

/-- Insertion into a list sorted by `start`. -/
def insertReg (r : protectedRegion) : List protectedRegion → List protectedRegion
  | [] => [r]
  | x :: xs => if r.start < x.start then r :: x :: xs else x :: insertReg r xs

/-- Sorting by `start`: Go `sort.Slice(regions, start <)` (k8s.go:322).
Go's sort is unstable, so the relative order of equal-`start` regions is
unspecified there; every statement proved below is insensitive to region
order (regions are only ever consumed through existential containment
checks), so a fixed insertion sort is a sound model. -/
def sortByStart : List protectedRegion → List protectedRegion
  | [] => []
  | r :: rs => insertReg r (sortByStart rs)

/-- Go `identifyProtectedRegions` (k8s.go:235). -/
def identifyProtectedRegions (content : List Char) : List protectedRegion :=
  sortByStart (scanLines (splitNl content) 0 false false false 0 0 0)

/-- Go `isPositionProtected` (k8s.go:399). -/
def isPositionProtected (pos : Nat) (regions : List protectedRegion) : Bool :=
  regions.any fun r => pos ≥ r.start && pos < r.stop

/-- The per-line full-containment test shared verbatim by all three rules
(k8s.go:423-428, 498-503, 590-595): a line is protected iff one region
contains its whole span. -/
def lineIsProtected (regions : List protectedRegion) (lineStart lineEnd : Nat) : Bool :=
  regions.any fun r => lineStart ≥ r.start && lineEnd ≤ r.stop

/-! ## Spacing rule -/

/-- `MatchString` of the two-class adjacency pattern `(p)(q)`. -/
def matchPair (p q : Char → Bool) : List Char → Bool
  | [] => false
  | [_] => false
  | c1 :: c2 :: r => (p c1 && q c2) || matchPair p q (c2 :: r)

/-- `regexp.ReplaceAllString` for the pattern `(p)(q)` with replacement
`"$1 $2"`: leftmost, non-overlapping — a match consumes both runes, and
the scan resumes after them (k8s.go:437-443,448). -/
def replacePair (p q : Char → Bool) : List Char → List Char
  | [] => []
  | [c] => [c]
  | c1 :: c2 :: r =>
    if p c1 && q c2 then c1 :: ' ' :: c2 :: replacePair p q r
    else c1 :: replacePair p q (c2 :: r)

/-- The two spacing substitutions applied to one line (k8s.go:432-450):
`([一-龯])([a-zA-Z0-9]) -> "$1 $2"` then `([a-zA-Z0-9])([一-龯]) -> "$1 $2"`,
each guarded by a `MatchString` test as in the source. -/
def spacingLine (line : List Char) : List Char :=
  let l1 :=
    if matchPair inCjkRange isAsciiAlnum line then replacePair inCjkRange isAsciiAlnum line
    else line
  if matchPair isAsciiAlnum inCjkRange l1 then replacePair isAsciiAlnum inCjkRange l1
  else l1

/-- The line loop of `applySpacingRuleWithProtection` (k8s.go:416-465);
arguments: current byte position, current 0-based line number. -/
def spacingLoop (regions : List protectedRegion) :
    List (List Char) → Nat → Nat → List (List Char) × List changeInfo
  | [], _, _ => ([], [])
  | line :: rest, pos, lineNum =>
    let prot := lineIsProtected regions pos (pos + byteLen line)
    let line' := if prot then line else spacingLine line
    let ch : List changeInfo :=
      if prot then []
      else if line' = line then []
      else [{ line := lineNum + 1, rule := "spacing",
              description := "Added space between Chinese and English text",
              before := line, after := line' }]
    let r := spacingLoop regions rest (pos + byteLen line + 1) (lineNum + 1)
    (line' :: r.1, ch ++ r.2)

/-- Go `applySpacingRuleWithProtection` (k8s.go:409). -/
def applySpacingRuleWithProtection (content : List Char) (regions : List protectedRegion) :
    List Char × List changeInfo :=
  let r := spacingLoop regions (splitNl content) 0 0
  (joinNl r.1, r.2)

/-! ## Punctuation rule -/

/-- `MatchString` of `\d+:\d+`: since each `\d+` needs at least one digit,
this holds exactly when some digit, `:`, digit are adjacent. -/
def hasDigitColonDigit : List Char → Bool
  | a :: b :: c :: r =>
    (isDigitChar a && b = ':' && isDigitChar c) || hasDigitColonDigit (b :: c :: r)
  | _ => false

/-- `MatchString` of the anchored `^\s*\w+:\s`: maximal munch is forced
(no `\s` is a `\w` and no `\w` is `:`), so: drop leading regex spaces,
require a nonempty word-character run, then `:`, then one regex space. -/
def leadingKeyMatch (line : List Char) : Bool :=
  let afterWs := line.dropWhile isRegexSpace
  let w := afterWs.takeWhile isWordChar
  match afterWs.dropWhile isWordChar with
  | c :: d :: _ => !w.isEmpty && c = ':' && isRegexSpace d
  | _ => false

/-- The colon-specific skip (k8s.go:519-525): URL `://`, a `digit:digit`
time pattern, or a YAML-ish leading `key: `. -/
def colonExcluded (line : List Char) : Bool :=
  containsSub line (("://").data) || hasDigitColonDigit line || leadingKeyMatch line

/-- The exclamation-specific skip (k8s.go:528-537). -/
def bangExcluded (line : List Char) : Bool :=
  containsSub line (("![").data) || containsSub line (("<!--").data) ||
    containsSub line (("`!").data) || containsSub line (("!`").data) ||
    containsSub line (("（`！`）").data) || containsSub line (("(`!`)").data)

/-- `strings.ReplaceAll(l, h, f)` for single-rune `h`, `f`: a
character-wise map. -/
def replaceAllChar (l : List Char) (h f : Char) : List Char :=
  l.map fun c => if c = h then f else c

/-- The `punctuationMap` (k8s.go:480-486) as (half-width, full-width)
pairs, listed in source order.  Go iterates the map in an unspecified
order; the rule is therefore modelled with an explicit order parameter,
and `punctLine_perm` below proves every order yields the same line. -/
def punctuationPairs : List (Char × Char) :=
  [(',', '，'), (';', '；'), (':', '：'), ('!', '！'), ('?', '？')]

/-- One iteration of the conversion loop (k8s.go:517-542) on the current
line state. -/
def punctStep (line : List Char) (p : Char × Char) : List Char :=
  if p.1 = ':' && colonExcluded line then line
  else if p.1 = '!' && bangExcluded line then line
  else if containsSub line [p.1] then replaceAllChar line p.1 p.2
  else line

/-- The whole conversion loop over the mark set, in iteration order
`order`. -/
def punctLine (order : List (Char × Char)) (line : List Char) : List Char :=
  order.foldl punctStep line

/-- `MatchString` of `[一-龯]` (k8s.go:509,515). -/
def lineHasCjk (line : List Char) : Bool :=
  line.any inCjkRange

/-- The YAML-frontmatter skip (k8s.go:507-512): trimmed line starts with
`---`, or contains `": "` while containing no `[一-龯]` rune. -/
def yamlSkip (line : List Char) : Bool :=
  let trimmed := trimSpace line
  listLeads (("---").data) trimmed ||
    (containsSub trimmed ((": ").data) && !lineHasCjk trimmed)

/-- The line loop of `applyPunctuationRuleWithProtection`
(k8s.go:491-558), with the map iteration order as a parameter. -/
def punctuationLoop (order : List (Char × Char)) (regions : List protectedRegion) :
    List (List Char) → Nat → Nat → List (List Char) × List changeInfo
  | [], _, _ => ([], [])
  | line :: rest, pos, lineNum =>
    let prot := lineIsProtected regions pos (pos + byteLen line)
    let skip := yamlSkip line
    let line' :=
      if prot then line
      else if skip then line
      else if lineHasCjk line then punctLine order line
      else line
    let ch : List changeInfo :=
      if prot || skip then []
      else if line' = line then []
      else [{ line := lineNum + 1, rule := "punctuation",
              description := "Converted half-width to full-width punctuation",
              before := line, after := line' }]
    let r := punctuationLoop order regions rest (pos + byteLen line + 1) (lineNum + 1)
    (line' :: r.1, ch ++ r.2)

/-- Go `applyPunctuationRuleWithProtection` (k8s.go:476), with the map
iteration order as a parameter. -/
def applyPunctuationRuleWithProtectionOrd (order : List (Char × Char))
    (content : List Char) (regions : List protectedRegion) :
    List Char × List changeInfo :=
  let r := punctuationLoop order regions (splitNl content) 0 0
  (joinNl r.1, r.2)

/-- Go `applyPunctuationRuleWithProtection` at the source-order
instantiation of the map (justified by `punctuationOrd_perm`). -/
def applyPunctuationRuleWithProtection (content : List Char) (regions : List protectedRegion) :
    List Char × List changeInfo :=
  applyPunctuationRuleWithProtectionOrd punctuationPairs content regions

/-! ## Linebreak rule -/

/-- Go `getIndentation` (k8s.go:825): longest leading run of spaces/tabs
(the whole line if it is all spaces/tabs). -/
def getIndentation (line : List Char) : List Char :=
  line.takeWhile fun c => c = ' ' || c = '\t'

/-- `MatchString` of the anchored `^\s*\d+\.\s` (ordered-list marker). -/
def listOrderedMatch (line : List Char) : Bool :=
  let afterWs := line.dropWhile isRegexSpace
  let w := afterWs.takeWhile isDigitChar
  match afterWs.dropWhile isDigitChar with
  | c :: d :: _ => !w.isEmpty && c = '.' && isRegexSpace d
  | _ => false

/-- Go `shouldSkipLineBreaking` (k8s.go:641); `&&` binds tighter than
`||` in the frontmatter clause, exactly as in the source. -/
def shouldSkipLineBreaking (line : List Char) : Bool :=
  let trimmed := trimSpace line
  trimmed = [] ||
  listLeads (("```").data) trimmed ||
  line.count '\x60' ≥ 2 ||
  containsSub line (("http://").data) || containsSub line (("https://").data) ||
  (containsSub line (("](").data) && line.count '[' = line.count ']') ||
  listLeads (("---").data) trimmed ||
    (containsSub trimmed ((": ").data) && !containsSub trimmed (("。").data) &&
      !containsSub trimmed (("，").data)) ||
  (listLeads (("|").data) trimmed && trimmed.getLast? = some '|') ||
  listLeads (("#").data) trimmed

/-- A descending index scan `for i := hi; i >= lo && i < len(runes); i--`
returning the first `i` whose rune satisfies `p` (k8s.go:767-780). -/
def searchDesc (runes : List Char) (p : Char → Bool) : Nat → Nat → Option Nat
  | hi, lo =>
    if hi < lo then none
    else
      match runes.get? hi, hi with
      | none, _ => none
      | some c, 0 => if p c then some 0 else none
      | some c, h + 1 => if p c then some (h + 1) else searchDesc runes p h lo

/-- The same descending scan over the byte string (k8s.go:793-797). -/
def searchDescBytes (bytes : List Nat) (p : Nat → Bool) : Nat → Nat → Option Nat
  | hi, lo =>
    if hi < lo then none
    else
      match bytes.get? hi, hi with
      | none, _ => none
      | some b, 0 => if p b then some 0 else none
      | some b, h + 1 => if p b then some (h + 1) else searchDescBytes bytes p h lo

/-- The script-transition scan (k8s.go:800-811): descending
`for i := hi; i >= lo && i < len(runes)-1; i--`, stopping (not skipping)
as soon as `i < len(runes)-1` fails, and looking for a CJK/non-CJK
adjacency. -/
def searchDescPair (runes : List Char) : Nat → Nat → Option Nat
  | hi, lo =>
    if hi < lo then none
    else
      match runes.get? hi, runes.get? (hi + 1), hi with
      | some c, some d, 0 =>
        if (isChinese c && !isChinese d) || (!isChinese c && isChinese d) then some 0 else none
      | some c, some d, h + 1 =>
        if (isChinese c && !isChinese d) || (!isChinese c && isChinese d) then some (h + 1)
        else searchDescPair runes h lo
      | _, _, _ => none

/-- Go `findBestBreakPoint` (k8s.go:751): rune window
`[preferred/2, preferred]` (clamped to the line) scanned downward for a
CJK sentence terminator, then a CJK clause mark, then the equivalent
*byte* window for an ASCII space, then the rune window for a script
transition; otherwise force `preferred` when the line exceeds `max`,
else `-1`.  (For an empty line Go would index out of bounds; the model
returns `none`-driven fallthrough there — the function is only reached
with nonempty lines.) -/
def findBestBreakPoint (line : List Char) (preferredLength maxLength : Nat) : Int :=
  let runes := line
  let lineLength := runes.length
  let searchEnd := if preferredLength ≥ lineLength then lineLength - 1 else preferredLength
  let searchStart :=
    if preferredLength / 2 ≥ lineLength then lineLength - 1 else preferredLength / 2
  match searchDesc runes (fun c => c = '。' || c = '！' || c = '？') searchEnd searchStart with
  | some i => (i : Int) + 1
  | none =>
  match searchDesc runes (fun c => c = '，' || c = '；' || c = '：') searchEnd searchStart with
  | some i => (i : Int) + 1
  | none =>
  let lineBytes := textBytes runes
  let searchEndBytes :=
    if preferredLength ≥ lineBytes.length then lineBytes.length - 1 else preferredLength
  let searchStartBytes :=
    if preferredLength / 2 ≥ lineBytes.length then lineBytes.length - 1 else preferredLength / 2
  match searchDescBytes lineBytes (fun b => b = 32) searchEndBytes searchStartBytes with
  | some i => (i : Int) + 1
  | none =>
  match searchDescPair runes searchEnd searchStart with
  | some i => (i : Int) + 1
  | none =>
    if lineLength > maxLength then
      if preferredLength < lineLength then (preferredLength : Int)
      else ((lineLength / 2 : Nat) : Int)
    else -1

/-- The continuation-line indentation adjustment (k8s.go:719-729 and
736-743), applied to a segment when at least one segment was already
emitted: list items get the original indentation plus two spaces,
otherwise a nonempty original indentation is reapplied. -/
def indentAdjust (line : List Char) (result : List (List Char)) (segment : List Char) : List Char :=
  if result.length > 0 then
    let indent := getIndentation line
    if containsSub line (("- ").data) || containsSub line (("* ").data) || listOrderedMatch line
    then indent ++ ' ' :: ' ' :: trimSpace segment
    else if indent = [] then segment
    else indent ++ trimSpace segment
  else segment

/-- The `for len(remainingRunes) > preferredLength` loop of
`smartLineBreak` (k8s.go:700-732).  As in the source, `remaining` (the
trimmed string) and `remainingRunes` (the untrimmed rune slice) are
tracked separately: the break point is computed on `remaining` but
sliced out of `remainingRunes`, and on `breakPoint == -1` the loop
appends `remaining` and exits (after which the source appends `remaining`
once more).  The fuel only bounds the recursion: every continuing
iteration drops at least one rune, so the initial fuel `line.length + 1`
is never exhausted for the calls made here. -/
def breakLoop (line : List Char) (maxLength preferredLength : Nat) :
    Nat → List Char → List Char → List (List Char) → List (List Char) × List Char
  | 0, remaining, _, result => (result, remaining)
  | fuel + 1, remaining, remainingRunes, result =>
    if remainingRunes.length > preferredLength then
      let breakPoint := findBestBreakPoint remaining preferredLength maxLength
      if breakPoint = -1 then (result ++ [remaining], remaining)
      else
        let bp := breakPoint.toNat
        let segment := trimSpace (remainingRunes.take bp)
        let remainingRunes' := remainingRunes.drop bp
        let remaining' := trimSpace remainingRunes'
        breakLoop line maxLength preferredLength fuel remaining' remainingRunes'
          (result ++ [indentAdjust line result segment])
    else (result, remaining)

/-- Go `smartLineBreak` (k8s.go:688). -/
def smartLineBreak (line : List Char) (maxLength preferredLength : Nat) : List (List Char) :=
  if line.length ≤ maxLength then [line]
  else
    let r := breakLoop line maxLength preferredLength (line.length + 1) line line []
    if r.2 = [] then r.1 else r.1 ++ [indentAdjust line r.1 r.2]

/-- The line loop of `applyLineBreakRuleWithProtection` (k8s.go:577-630).
The source iterates from the last line down, computing each line's start
offset from the (unchanged) earlier lines and splicing replacement
segments in after the current index; since no state flows between lines,
this equals the forward per-line expansion below, with the change list
accumulated in the source's descending-line order. -/
def lineBreakLoop (regions : List protectedRegion) :
    List (List Char) → Nat → Nat → List (List Char) × List changeInfo
  | [], _, _ => ([], [])
  | line :: rest, pos, lineNum =>
    let maxLineLength := 120
    let preferredLineLength := 80
    let prot := lineIsProtected regions pos (pos + byteLen line)
    let r := lineBreakLoop regions rest (pos + byteLen line + 1) (lineNum + 1)
    if prot then (line :: r.1, r.2)
    else if shouldSkipLineBreaking line then (line :: r.1, r.2)
    else if line.length ≤ preferredLineLength then (line :: r.1, r.2)
    else
      let broken := smartLineBreak line maxLineLength preferredLineLength
      if broken.length > 1 then
        (broken ++ r.1,
          r.2 ++ [{ line := lineNum + 1, rule := "linebreaks",
                    description := "Broke long line (" ++ toString line.length ++
                      " chars) into " ++ toString broken.length ++ " lines",
                    before := line, after := joinNl broken }])
      else (line :: r.1, r.2)

/-- Go `applyLineBreakRuleWithProtection` (k8s.go:569). -/
def applyLineBreakRuleWithProtection (content : List Char) (regions : List protectedRegion) :
    List Char × List changeInfo :=
  let r := lineBreakLoop regions (splitNl content) 0 0
  (joinNl r.1, r.2)

/-! ## Rule dispatch -/

/-- One iteration of the rule `switch` in `applyFormattingRules`
(k8s.go:209-222): apply the named rule to the accumulated text and append
its changes (unknown rule names fall through, as by the `switch`
default). -/
def ruleStep (protectedRegions : List protectedRegion)
    (acc : List Char × List changeInfo) (rule : String) : List Char × List changeInfo :=
  if rule = "spacing" then
    let r := applySpacingRuleWithProtection acc.1 protectedRegions
    (r.1, acc.2 ++ r.2)
  else if rule = "punctuation" then
    let r := applyPunctuationRuleWithProtection acc.1 protectedRegions
    (r.1, acc.2 ++ r.2)
  else if rule = "linebreaks" then
    let r := applyLineBreakRuleWithProtection acc.1 protectedRegions
    (r.1, acc.2 ++ r.2)
  else acc

/-- Go `applyFormattingRules` (k8s.go:197): default the rule selection
when empty, scan protected regions once from the original content, then
fold the selected rules in the caller-supplied order. -/
def applyFormattingRules (content : List Char) (rules : List String) :
    List Char × List changeInfo :=
  let rules := if rules.isEmpty then ["spacing", "punctuation", "linebreaks"] else rules
  let protectedRegions := identifyProtectedRegions content
  rules.foldl (ruleStep protectedRegions) (content, [])

/-! ## Auxiliary definitions used by the statements below -/

/-- Byte offset of the start of line `i` within `joinNl lines`: the byte
lengths of the earlier lines plus one separating newline each (this is
the `currentPos` / `lineStart` accounting of the three rule loops). -/
def lineStartPos : List (List Char) → Nat → Nat
  | _, 0 => 0
  | [], _ + 1 => 0
  | l :: ls, i + 1 => byteLen l + 1 + lineStartPos ls i

/-- A spacing boundary as the two regexes jointly describe it: a
`[一-龯]` rune adjacent to an `[a-zA-Z0-9]` rune, in either direction. -/
def spacingBoundary (c1 c2 : Char) : Bool :=
  (inCjkRange c1 && isAsciiAlnum c2) || (isAsciiAlnum c1 && inCjkRange c2)

/-- Modelled from the spec (§4.1 spacing rule), with the character range
corrected from U+4E00..U+9FFF to the range `[一-龯]` = U+4E00..U+9FAF the
code actually uses: one left-to-right pass inserting exactly one space at
every CJK/ASCII-alphanumeric boundary.  `spacingLine_eq_spec` proves the
source's two sequential regex substitutions compute exactly this. -/
def specInsertSpaces : List Char → List Char
  | [] => []
  | [c] => [c]
  | c1 :: c2 :: r =>
    if spacingBoundary c1 c2 then c1 :: ' ' :: specInsertSpaces (c2 :: r)
    else c1 :: specInsertSpaces (c2 :: r)

/-- Whether some adjacent pair of runes forms a spacing boundary. -/
def hasBdy : List Char → Bool
  | [] => false
  | [_] => false
  | c1 :: c2 :: r => spacingBoundary c1 c2 || hasBdy (c2 :: r)

/-- The condition under which one iteration of the punctuation conversion
loop actually rewrites the line (the three-way `if`/`continue` chain of
k8s.go:517-542 flattened; `punctStep_eq_ite` proves the equivalence). -/
def guardB (p : Char × Char) (l : List Char) : Bool :=
  !(p.1 = ':' && colonExcluded l) && !(p.1 = '!' && bangExcluded l) && containsSub l [p.1]

/-! Concrete inputs used by counterexamples and witnesses. -/

/-- One line holding an inline-code span with a CJK/ASCII boundary inside
it: `` a`今b`c ``. -/
def cexInline : List Char := ("a`今b`c").data

/-- An unterminated code fence followed by a line with a CJK/ASCII
boundary. -/
def cexFence : List Char := ("```\n今a").data

/-- A 120-code-point line: 119 ASCII letters then one CJK ideograph, so
the spacing rule lengthens it to 121 code points. -/
def cexOrder : List Char := List.replicate 119 'a' ++ [('天' : Char)]

/-- The 130-code-point all-ASCII line of C5: letters with the only space
at code-point index 95 and no CJK punctuation. -/
def cexBreak : List Char := List.replicate 95 'a' ++ [' '] ++ List.replicate 34 'b'

/-- A 128-code-point line whose colon conversions are suppressed by the
`12:30` time pattern while the line is whole, but not once the linebreak
rule has split the tail `注意:...` onto its own line. -/
def cexTwice : List Char :=
  ("12:30 ").data ++ List.replicate 73 ('天' : Char) ++ [('。' : Char)] ++
    ("注意:").data ++ List.replicate 45 ('意' : Char)

/-- A long line containing the complete markdown link `[a](b)` but with
one extra unmatched `]`, so the whole-line bracket counts differ. -/
def cexLink : List Char := ("[a](b) ").data ++ List.replicate 130 'x' ++ [(']' : Char)]

/-- U+9FFF (a CJK ideograph by `isChinese` and by the spec's glossary)
followed by an ASCII letter; U+9FFF is outside the regex class
`[一-龯]` = U+4E00..U+9FAF. -/
def cexWideCjk : List Char := [Char.ofNat 0x9fff, 'a']

/-- A wholly protected line: the middle line of a closed code fence. -/
def cexFenced : List Char := ("```\na今b,c:d\n```").data

/-- The body of one `spacingLoop` iteration, as a function of the line's
start offset (used to state per-line facts about the loop). -/
def spacingOne (regions : List protectedRegion) (pos : Nat) (line : List Char) : List Char :=
  if lineIsProtected regions pos (pos + byteLen line) then line else spacingLine line

/-- The body of one `punctuationLoop` iteration. -/
def punctOne (order : List (Char × Char)) (regions : List protectedRegion)
    (pos : Nat) (line : List Char) : List Char :=
  if lineIsProtected regions pos (pos + byteLen line) then line
  else if yamlSkip line then line
  else if lineHasCjk line then punctLine order line
  else line

/-- The replacement lines one `lineBreakLoop` iteration produces for one
input line. -/
def lineBreakOne (regions : List protectedRegion) (pos : Nat) (line : List Char) :
    List (List Char) :=
  if lineIsProtected regions pos (pos + byteLen line) then [line]
  else if shouldSkipLineBreaking line then [line]
  else if line.length ≤ 80 then [line]
  else
    let broken := smartLineBreak line 120 80
    if broken.length > 1 then broken else [line]

/-- Position-threading map over lines, advancing by byte length plus the
newline, as all three rule loops do. -/
def mapLinesPos {α : Type} (f : Nat → List Char → α) : List (List Char) → Nat → List α
  | [], _ => []
  | l :: ls, pos => f pos l :: mapLinesPos f ls (pos + byteLen l + 1)

/-! ## Lemmas: splitting and joining lines -/

theorem splitNl_ne_nil (content : List Char) : splitNl content ≠ [] := by
  induction content with
  | nil => simp [splitNl]
  | cons c r ih =>
    simp only [splitNl]
    by_cases h : c = '\n'
    · simp [h]
    · simp only [h, if_false]
      cases hs : splitNl r with
      | nil => simp
      | cons l ls => simp

theorem joinNl_cons (c : Char) (l : List Char) (ls : List (List Char)) :
    joinNl ((c :: l) :: ls) = c :: joinNl (l :: ls) := by
  cases ls <;> rfl

theorem joinNl_splitNl (content : List Char) : joinNl (splitNl content) = content := by
  induction content with
  | nil => rfl
  | cons c r ih =>
    simp only [splitNl]
    by_cases h : c = '\n'
    · subst h
      simp only [if_pos rfl]
      cases hs : splitNl r with
      | nil => exact absurd hs (splitNl_ne_nil r)
      | cons l ls =>
        rw [hs] at ih
        show joinNl ([] :: l :: ls) = _
        show [] ++ '\n' :: joinNl (l :: ls) = _
        rw [ih]
        rfl
    · simp only [h, if_false]
      cases hs : splitNl r with
      | nil => exact absurd hs (splitNl_ne_nil r)
      | cons l ls =>
        rw [hs] at ih
        rw [joinNl_cons, ih]

theorem splitNl_single (l : List Char) (h : ∀ c ∈ l, c ≠ '\n') : splitNl l = [l] := by
  induction l with
  | nil => rfl
  | cons c r ih =>
    have hc : c ≠ '\n' := h c (List.mem_cons_self c r)
    simp only [splitNl, hc, if_false]
    rw [ih fun x hx => h x (List.mem_cons_of_mem c hx)]

theorem splitNl_append (l rest : List Char) (h : ∀ c ∈ l, c ≠ '\n') :
    splitNl (l ++ '\n' :: rest) = l :: splitNl rest := by
  induction l with
  | nil => simp [splitNl]
  | cons c t ih =>
    have hc : c ≠ '\n' := h c (List.mem_cons_self c t)
    show splitNl (c :: (t ++ '\n' :: rest)) = _
    simp only [splitNl, hc, if_false]
    rw [ih fun x hx => h x (List.mem_cons_of_mem c hx)]

theorem splitNl_joinNl (lines : List (List Char)) (hne : lines ≠ [])
    (h : ∀ l ∈ lines, ∀ c ∈ l, c ≠ '\n') : splitNl (joinNl lines) = lines := by
  induction lines with
  | nil => exact absurd rfl hne
  | cons l ls ih =>
    cases ls with
    | nil => exact splitNl_single l (h l (List.mem_cons_self l []))
    | cons l2 ls2 =>
      show splitNl (l ++ '\n' :: joinNl (l2 :: ls2)) = _
      rw [splitNl_append l _ (h l (List.mem_cons_self l _)),
        ih (by simp) fun x hx => h x (List.mem_cons_of_mem l hx)]

theorem mem_splitNl_ne_nl {content l : List Char} {c : Char}
    (hl : l ∈ splitNl content) (hc : c ∈ l) : c ≠ '\n' := by
  induction content generalizing l with
  | nil =>
    simp only [splitNl, List.mem_singleton] at hl
    subst hl
    exact absurd hc (List.not_mem_nil c)
  | cons d r ih =>
    simp only [splitNl] at hl
    by_cases hd : d = '\n'
    · rw [if_pos hd] at hl
      rcases List.mem_cons.mp hl with h1 | h1
      · subst h1; exact absurd hc (List.not_mem_nil c)
      · exact ih h1 hc
    · rw [if_neg hd] at hl
      cases hs : splitNl r with
      | nil => exact absurd hs (splitNl_ne_nil r)
      | cons l2 ls =>
        rw [hs] at hl
        rcases List.mem_cons.mp hl with h1 | h1
        · subst h1
          rcases List.mem_cons.mp hc with h2 | h2
          · subst h2; exact hd
          · exact ih (hs ▸ List.mem_cons_self l2 ls) h2
        · exact ih (hs ▸ List.mem_cons_of_mem l2 h1) hc

/-! ## Lemmas: the rule loops as position-threaded maps -/

theorem spacingLoop_fst (regions : List protectedRegion) :
    ∀ (lines : List (List Char)) (pos num : Nat),
      (spacingLoop regions lines pos num).1 = mapLinesPos (spacingOne regions) lines pos := by
  intro lines
  induction lines with
  | nil => intro pos num; rfl
  | cons l ls ih =>
    intro pos num
    simp only [spacingLoop, mapLinesPos, spacingOne, ih]

theorem punctuationLoop_fst (order : List (Char × Char)) (regions : List protectedRegion) :
    ∀ (lines : List (List Char)) (pos num : Nat),
      (punctuationLoop order regions lines pos num).1 =
        mapLinesPos (punctOne order regions) lines pos := by
  intro lines
  induction lines with
  | nil => intro pos num; rfl
  | cons l ls ih =>
    intro pos num
    simp only [punctuationLoop, mapLinesPos, punctOne, ih]

theorem lineBreakLoop_fst (regions : List protectedRegion) :
    ∀ (lines : List (List Char)) (pos num : Nat),
      (lineBreakLoop regions lines pos num).1 =
        (mapLinesPos (lineBreakOne regions) lines pos).flatten := by
  intro lines
  induction lines with
  | nil => intro pos num; rfl
  | cons l ls ih =>
    intro pos num
    simp only [lineBreakLoop, mapLinesPos, lineBreakOne, List.flatten_cons, ih]
    by_cases h1 : lineIsProtected regions pos (pos + byteLen l) = true
    · simp [h1]
    · simp only [h1]
      by_cases h2 : shouldSkipLineBreaking l = true
      · simp [h2]
      · simp only [h2]
        by_cases h3 : l.length ≤ 80
        · simp [h3]
        · simp only [h3]
          by_cases h4 : (smartLineBreak l 120 80).length > 1
          · simp [h4]
          · simp [h4]

theorem mapLinesPos_get {α : Type} (f : Nat → List Char → α) :
    ∀ (lines : List (List Char)) (pos i : Nat),
      (mapLinesPos f lines pos)[i]? =
        (lines[i]?).map fun l => f (pos + lineStartPos lines i) l := by
  intro lines
  induction lines with
  | nil => intro pos i; rfl
  | cons l ls ih =>
    intro pos i
    cases i with
    | zero => simp [mapLinesPos, lineStartPos]
    | succ j =>
      simp only [mapLinesPos, List.getElem?_cons_succ, ih (pos + byteLen l + 1) j]
      have h : pos + byteLen l + 1 + lineStartPos ls j =
          pos + lineStartPos (l :: ls) (j + 1) := by
        simp only [lineStartPos]; omega
      rw [h]

theorem mem_mapLinesPos {α : Type} (f : Nat → List Char → α) :
    ∀ {lines : List (List Char)} {pos : Nat} {x : α},
      x ∈ mapLinesPos f lines pos → ∃ p l, l ∈ lines ∧ x = f p l := by
  intro lines
  induction lines with
  | nil => intro pos x hx; exact absurd hx (List.not_mem_nil x)
  | cons l ls ih =>
    intro pos x hx
    rcases List.mem_cons.mp hx with h | h
    · exact ⟨pos, l, List.mem_cons_self l ls, h⟩
    · obtain ⟨p, l2, hmem, hx⟩ := ih h
      exact ⟨p, l2, List.mem_cons_of_mem l hmem, hx⟩

theorem mem_mapLinesPos_of_mem {α : Type} (f : Nat → List Char → α) :
    ∀ {lines : List (List Char)} {l : List Char} (pos : Nat),
      l ∈ lines → ∃ p, f p l ∈ mapLinesPos f lines pos := by
  intro lines
  induction lines with
  | nil => intro l pos hl; exact absurd hl (List.not_mem_nil l)
  | cons l0 ls ih =>
    intro l pos hl
    rcases List.mem_cons.mp hl with h | h
    · subst h; exact ⟨pos, List.mem_cons_self _ _⟩
    · obtain ⟨p, hp⟩ := ih (pos + byteLen l0 + 1) h
      exact ⟨p, List.mem_cons_of_mem _ hp⟩

/-! ## Lemmas: a two-cons and a three-cons induction principle -/

theorem twoStep_ind {P : List Char → Prop} (h0 : P []) (h1 : ∀ c, P [c])
    (h2 : ∀ c1 c2 r, P r → P (c2 :: r) → P (c1 :: c2 :: r)) : ∀ l, P l := by
  have key : ∀ n (l : List Char), l.length ≤ n → P l := by
    intro n
    induction n with
    | zero =>
      intro l hl
      match l with
      | [] => exact h0
      | c :: _ => simp at hl
    | succ n ih =>
      intro l hl
      match l with
      | [] => exact h0
      | [c] => exact h1 c
      | c1 :: c2 :: r =>
        have hr : r.length ≤ n := by simp at hl; omega
        have hcr : (c2 :: r).length ≤ n := by simp at hl ⊢; omega
        exact h2 c1 c2 r (ih r hr) (ih (c2 :: r) hcr)
  exact fun l => key l.length l le_rfl

theorem threeStep_ind {P : List Char → Prop} (h0 : P []) (h1 : ∀ c, P [c])
    (h2 : ∀ c1 c2, P [c1, c2])
    (h3 : ∀ c1 c2 c3 r, P (c2 :: c3 :: r) → P (c1 :: c2 :: c3 :: r)) : ∀ l, P l := by
  have key : ∀ n (l : List Char), l.length ≤ n → P l := by
    intro n
    induction n with
    | zero =>
      intro l hl
      match l with
      | [] => exact h0
      | c :: _ => simp at hl
    | succ n ih =>
      intro l hl
      match l with
      | [] => exact h0
      | [c] => exact h1 c
      | [c1, c2] => exact h2 c1 c2
      | c1 :: c2 :: c3 :: r =>
        have hr : (c2 :: c3 :: r).length ≤ n := by simp at hl ⊢; omega
        exact h3 c1 c2 c3 r (ih _ hr)
  exact fun l => key l.length l le_rfl

/-! ## Lemmas: character provenance of rule outputs -/

theorem mem_of_mem_replacePair (p q : Char → Bool) :
    ∀ l, ∀ c ∈ replacePair p q l, c ∈ l ∨ c = ' ' := by
  refine twoStep_ind ?_ ?_ ?_
  · intro c hc; exact absurd hc (List.not_mem_nil c)
  · intro c d hd
    simp only [replacePair] at hd
    exact Or.inl hd
  · intro c1 c2 r ihr ihcr c hc
    simp only [replacePair] at hc
    by_cases hm : (p c1 && q c2) = true
    · rw [if_pos hm] at hc
      rcases List.mem_cons.mp hc with h | h
      · exact Or.inl (h ▸ List.mem_cons_self _ _)
      rcases List.mem_cons.mp h with h | h
      · exact Or.inr h
      rcases List.mem_cons.mp h with h | h
      · exact Or.inl (h ▸ List.mem_cons_of_mem _ (List.mem_cons_self _ _))
      rcases ihr c h with h | h
      · exact Or.inl (List.mem_cons_of_mem _ (List.mem_cons_of_mem _ h))
      · exact Or.inr h
    · rw [if_neg hm] at hc
      rcases List.mem_cons.mp hc with h | h
      · exact Or.inl (h ▸ List.mem_cons_self _ _)
      rcases ihcr c h with h | h
      · exact Or.inl (List.mem_cons_of_mem _ h)
      · exact Or.inr h

theorem mem_of_mem_spacingLine {l : List Char} {c : Char}
    (hc : c ∈ spacingLine l) : c ∈ l ∨ c = ' ' := by
  simp only [spacingLine] at hc
  by_cases h1 : matchPair inCjkRange isAsciiAlnum l = true
  · rw [if_pos h1] at hc
    by_cases h2 :
        matchPair isAsciiAlnum inCjkRange (replacePair inCjkRange isAsciiAlnum l) = true
    · rw [if_pos h2] at hc
      rcases mem_of_mem_replacePair _ _ _ c hc with h | h
      · rcases mem_of_mem_replacePair _ _ _ c h with h | h
        · exact Or.inl h
        · exact Or.inr h
      · exact Or.inr h
    · rw [if_neg h2] at hc
      exact mem_of_mem_replacePair _ _ _ c hc
  · rw [if_neg h1] at hc
    by_cases h2 : matchPair isAsciiAlnum inCjkRange l = true
    · rw [if_pos h2] at hc
      exact mem_of_mem_replacePair _ _ _ c hc
    · rw [if_neg h2] at hc
      exact Or.inl hc

theorem mem_of_mem_replaceAllChar {l : List Char} {h f c : Char}
    (hc : c ∈ replaceAllChar l h f) : c ∈ l ∨ c = f := by
  simp only [replaceAllChar, List.mem_map] at hc
  obtain ⟨d, hd, he⟩ := hc
  by_cases hdh : d = h
  · simp [hdh] at he; exact Or.inr he.symm
  · simp [hdh] at he; exact Or.inl (he ▸ hd)

theorem mem_of_mem_punctStep {l : List Char} {p : Char × Char} {c : Char}
    (hc : c ∈ punctStep l p) : c ∈ l ∨ c = p.2 := by
  simp only [punctStep] at hc
  split at hc
  · exact Or.inl hc
  · split at hc
    · exact Or.inl hc
    · split at hc
      · exact mem_of_mem_replaceAllChar hc
      · exact Or.inl hc

theorem mem_of_mem_punctLine {order : List (Char × Char)} {l : List Char} {c : Char}
    (hc : c ∈ punctLine order l) : c ∈ l ∨ ∃ p ∈ order, c = p.2 := by
  induction order generalizing l with
  | nil => exact Or.inl hc
  | cons p ps ih =>
    rcases ih (show c ∈ punctLine ps (punctStep l p) from hc) with h | h
    · rcases mem_of_mem_punctStep h with h | h
      · exact Or.inl h
      · exact Or.inr ⟨p, List.mem_cons_self _ _, h⟩
    · obtain ⟨q, hq, he⟩ := h
      exact Or.inr ⟨q, List.mem_cons_of_mem _ hq, he⟩

theorem mem_of_mem_trimSpace {l : List Char} {c : Char} (hc : c ∈ trimSpace l) : c ∈ l := by
  simp only [trimSpace] at hc
  rw [List.mem_reverse] at hc
  have h1 := List.IsSuffix.mem hc (List.dropWhile_suffix goIsSpace)
  rw [List.mem_reverse] at h1
  exact List.IsSuffix.mem h1 (List.dropWhile_suffix goIsSpace)

theorem mem_of_mem_getIndentation {l : List Char} {c : Char}
    (hc : c ∈ getIndentation l) : c ∈ l :=
  List.IsPrefix.mem hc (List.takeWhile_prefix _)

theorem mem_of_mem_indentAdjust {line seg : List Char} {result : List (List Char)} {c : Char}
    (hc : c ∈ indentAdjust line result seg) : c ∈ line ∨ c ∈ seg ∨ c = ' ' := by
  simp only [indentAdjust] at hc
  split at hc
  · split at hc
    · rcases List.mem_append.mp hc with h | h
      · exact Or.inl (mem_of_mem_getIndentation h)
      rcases List.mem_cons.mp h with h | h
      · exact Or.inr (Or.inr h)
      rcases List.mem_cons.mp h with h | h
      · exact Or.inr (Or.inr h)
      · exact Or.inr (Or.inl (mem_of_mem_trimSpace h))
    · split at hc
      · exact Or.inr (Or.inl hc)
      · rcases List.mem_append.mp hc with h | h
        · exact Or.inl (mem_of_mem_getIndentation h)
        · exact Or.inr (Or.inl (mem_of_mem_trimSpace h))
  · exact Or.inr (Or.inl hc)

theorem breakLoop_chars (line : List Char) (maxL prefL : Nat) :
    ∀ (fuel : Nat) (remaining remainingRunes : List Char) (result : List (List Char)),
      (∀ c ∈ remaining, c ∈ line ∨ c = ' ') →
      (∀ c ∈ remainingRunes, c ∈ line ∨ c = ' ') →
      (∀ s ∈ result, ∀ c ∈ s, c ∈ line ∨ c = ' ') →
      (∀ s ∈ (breakLoop line maxL prefL fuel remaining remainingRunes result).1,
          ∀ c ∈ s, c ∈ line ∨ c = ' ') ∧
        (∀ c ∈ (breakLoop line maxL prefL fuel remaining remainingRunes result).2,
          c ∈ line ∨ c = ' ') := by
  intro fuel
  induction fuel with
  | zero => intro remaining remainingRunes result h1 h2 h3; exact ⟨h3, h1⟩
  | succ n ih =>
    intro remaining remainingRunes result h1 h2 h3
    simp only [breakLoop]
    split
    · split
      · refine ⟨?_, h1⟩
        intro s hs
        rcases List.mem_append.mp hs with h | h
        · exact h3 s h
        · rw [List.mem_singleton.mp h]; exact h1
      · apply ih
        · intro c hc; exact h2 c (List.mem_of_mem_drop (mem_of_mem_trimSpace hc))
        · intro c hc; exact h2 c (List.mem_of_mem_drop hc)
        · intro s hs
          rcases List.mem_append.mp hs with h | h
          · exact h3 s h
          · rw [List.mem_singleton.mp h]
            intro c hc
            rcases mem_of_mem_indentAdjust hc with h | h | h
            · exact Or.inl h
            · exact h2 c (List.mem_of_mem_take (mem_of_mem_trimSpace h))
            · exact Or.inr h
    · exact ⟨h3, h1⟩

theorem smartLineBreak_chars {line : List Char} {maxL prefL : Nat} :
    ∀ s ∈ smartLineBreak line maxL prefL, ∀ c ∈ s, c ∈ line ∨ c = ' ' := by
  intro s hs c hc
  simp only [smartLineBreak] at hs
  split at hs
  · rw [List.mem_singleton.mp hs] at hc; exact Or.inl hc
  · have key := breakLoop_chars line maxL prefL (line.length + 1) line line []
      (fun c hc => Or.inl hc) (fun c hc => Or.inl hc)
      (fun s hs => absurd hs (List.not_mem_nil s))
    split at hs
    · exact key.1 s hs c hc
    · rcases List.mem_append.mp hs with h | h
      · exact key.1 s h c hc
      · rw [List.mem_singleton.mp h] at hc
        rcases mem_of_mem_indentAdjust hc with h | h | h
        · exact Or.inl h
        · exact key.2 c h
        · exact Or.inr h

/-! ## Lemmas: the rule outputs, re-split into lines -/

theorem mapLinesPos_ne_nil {α : Type} (f : Nat → List Char → α) {lines : List (List Char)}
    (h : lines ≠ []) (pos : Nat) : mapLinesPos f lines pos ≠ [] := by
  cases lines with
  | nil => exact absurd rfl h
  | cons l ls => simp [mapLinesPos]

theorem splitNl_applySpacing (content : List Char) (regions : List protectedRegion) :
    splitNl (applySpacingRuleWithProtection content regions).1 =
      mapLinesPos (spacingOne regions) (splitNl content) 0 := by
  show splitNl (joinNl (spacingLoop regions (splitNl content) 0 0).1) = _
  rw [spacingLoop_fst]
  apply splitNl_joinNl
  · exact mapLinesPos_ne_nil _ (splitNl_ne_nil content) 0
  · intro x hx c hc
    obtain ⟨p, l, hl, hx⟩ := mem_mapLinesPos _ hx
    subst hx
    simp only [spacingOne] at hc
    split at hc
    · exact mem_splitNl_ne_nl hl hc
    · rcases mem_of_mem_spacingLine hc with h | h
      · exact mem_splitNl_ne_nl hl h
      · subst h; decide

theorem splitNl_applyPunctuationOrd (order : List (Char × Char))
    (hord : ∀ p ∈ order, p.2 ≠ '\n') (content : List Char) (regions : List protectedRegion) :
    splitNl (applyPunctuationRuleWithProtectionOrd order content regions).1 =
      mapLinesPos (punctOne order regions) (splitNl content) 0 := by
  show splitNl (joinNl (punctuationLoop order regions (splitNl content) 0 0).1) = _
  rw [punctuationLoop_fst]
  apply splitNl_joinNl
  · exact mapLinesPos_ne_nil _ (splitNl_ne_nil content) 0
  · intro x hx c hc
    obtain ⟨p, l, hl, hx⟩ := mem_mapLinesPos _ hx
    subst hx
    simp only [punctOne] at hc
    split at hc
    · exact mem_splitNl_ne_nl hl hc
    · split at hc
      · exact mem_splitNl_ne_nl hl hc
      · split at hc
        · rcases mem_of_mem_punctLine hc with h | h
          · exact mem_splitNl_ne_nl hl h
          · obtain ⟨q, hq, he⟩ := h
            exact he ▸ hord q hq
        · exact mem_splitNl_ne_nl hl hc

theorem splitNl_applyPunctuation (content : List Char) (regions : List protectedRegion) :
    splitNl (applyPunctuationRuleWithProtection content regions).1 =
      mapLinesPos (punctOne punctuationPairs regions) (splitNl content) 0 :=
  splitNl_applyPunctuationOrd punctuationPairs (by decide) content regions

theorem lineBreakOne_ne_nil (regions : List protectedRegion) (pos : Nat) (line : List Char) :
    lineBreakOne regions pos line ≠ [] := by
  simp only [lineBreakOne]
  split
  · simp
  · split
    · simp
    · split
      · simp
      · split
        · rename_i h
          intro he
          rw [he] at h
          simp at h
        · simp

theorem flatten_ne_nil_of_parts {α : Type} {L : List (List α)} (hne : L ≠ [])
    (h : ∀ p ∈ L, p ≠ []) : L.flatten ≠ [] := by
  cases L with
  | nil => exact absurd rfl hne
  | cons p ps =>
    have hp := h p (List.mem_cons_self p ps)
    cases p with
    | nil => exact absurd rfl hp
    | cons a asx => simp

theorem splitNl_applyLineBreak (content : List Char) (regions : List protectedRegion) :
    splitNl (applyLineBreakRuleWithProtection content regions).1 =
      (mapLinesPos (lineBreakOne regions) (splitNl content) 0).flatten := by
  show splitNl (joinNl (lineBreakLoop regions (splitNl content) 0 0).1) = _
  rw [lineBreakLoop_fst]
  apply splitNl_joinNl
  · apply flatten_ne_nil_of_parts (mapLinesPos_ne_nil _ (splitNl_ne_nil content) 0)
    intro p hp
    obtain ⟨q, l, hl, hx⟩ := mem_mapLinesPos _ hp
    exact hx ▸ lineBreakOne_ne_nil regions q l
  · intro x hx c hc
    rw [List.mem_flatten] at hx
    obtain ⟨part, hpart, hx⟩ := hx
    obtain ⟨q, l, hl, hpe⟩ := mem_mapLinesPos _ hpart
    subst hpe
    simp only [lineBreakOne] at hx
    split at hx
    · rw [List.mem_singleton.mp hx] at hc; exact mem_splitNl_ne_nl hl hc
    · split at hx
      · rw [List.mem_singleton.mp hx] at hc; exact mem_splitNl_ne_nl hl hc
      · split at hx
        · rw [List.mem_singleton.mp hx] at hc; exact mem_splitNl_ne_nl hl hc
        · split at hx
          · rcases smartLineBreak_chars x hx c hc with h | h
            · exact mem_splitNl_ne_nl hl h
            · subst h; decide
          · rw [List.mem_singleton.mp hx] at hc; exact mem_splitNl_ne_nl hl hc

/-! ## Lemmas: short and skipped lines under the linebreak rule -/

theorem smartLineBreak_le_max {line : List Char} {maxL prefL : Nat}
    (h : line.length ≤ maxL) : smartLineBreak line maxL prefL = [line] := by
  simp [smartLineBreak, h]

theorem lineBreakOne_short {regions : List protectedRegion} {pos : Nat} {line : List Char}
    (h : line.length ≤ 120) : lineBreakOne regions pos line = [line] := by
  simp only [lineBreakOne]
  split
  · rfl
  · split
    · rfl
    · split
      · rfl
      · rw [smartLineBreak_le_max h]
        simp

theorem lineBreakOne_skip {regions : List protectedRegion} {pos : Nat} {line : List Char}
    (h : shouldSkipLineBreaking line = true) : lineBreakOne regions pos line = [line] := by
  simp only [lineBreakOne]
  split
  · rfl
  · simp [h]

/-! ## Lemmas: empty change lists mean untouched text -/

theorem spacingLoop_snd_nil (regions : List protectedRegion) :
    ∀ (lines : List (List Char)) (pos num : Nat),
      (spacingLoop regions lines pos num).2 = [] →
      (spacingLoop regions lines pos num).1 = lines := by
  intro lines
  induction lines with
  | nil => intro pos num _; rfl
  | cons l ls ih =>
    intro pos num h
    simp only [spacingLoop] at h ⊢
    rw [List.append_eq_nil] at h
    rw [ih (pos + byteLen l + 1) (num + 1) h.2]
    have h1 := h.1
    split at h1
    · rename_i hp; simp [hp]
    · split at h1
      · rename_i hp he; simp [hp, he]
      · simp at h1

theorem punctuationLoop_snd_nil (order : List (Char × Char)) (regions : List protectedRegion) :
    ∀ (lines : List (List Char)) (pos num : Nat),
      (punctuationLoop order regions lines pos num).2 = [] →
      (punctuationLoop order regions lines pos num).1 = lines := by
  intro lines
  induction lines with
  | nil => intro pos num _; rfl
  | cons l ls ih =>
    intro pos num h
    simp only [punctuationLoop] at h ⊢
    rw [List.append_eq_nil] at h
    rw [ih (pos + byteLen l + 1) (num + 1) h.2]
    have h1 := h.1
    by_cases hp : lineIsProtected regions pos (pos + byteLen l) = true
    · simp [hp]
    · by_cases hy : yamlSkip l = true
      · simp [hp, hy]
      · simp only [hp, hy, Bool.false_eq_true, if_false, Bool.or_self] at h1 ⊢
        by_cases hc : lineHasCjk l = true
        · simp only [hc, if_true] at h1 ⊢
          split at h1
          · rename_i he; rw [he]
          · simp at h1
        · simp [hc]

theorem lineBreakLoop_snd_nil (regions : List protectedRegion) :
    ∀ (lines : List (List Char)) (pos num : Nat),
      (lineBreakLoop regions lines pos num).2 = [] →
      (lineBreakLoop regions lines pos num).1 = lines := by
  intro lines
  induction lines with
  | nil => intro pos num _; rfl
  | cons l ls ih =>
    intro pos num h
    simp only [lineBreakLoop] at h ⊢
    by_cases h1 : lineIsProtected regions pos (pos + byteLen l) = true
    · simp only [h1, if_true] at h ⊢
      rw [ih _ _ h]
    · simp only [h1, Bool.false_eq_true, if_false] at h ⊢
      by_cases h2 : shouldSkipLineBreaking l = true
      · simp only [h2, if_true] at h ⊢
        rw [ih _ _ h]
      · simp only [h2, Bool.false_eq_true, if_false] at h ⊢
        by_cases h3 : l.length ≤ 80
        · simp only [if_pos h3] at h ⊢
          rw [ih _ _ h]
        · simp only [if_neg h3] at h ⊢
          by_cases h4 : (smartLineBreak l 120 80).length > 1
          · simp only [if_pos h4] at h
            simp at h
          · simp only [if_neg h4] at h ⊢
            rw [ih _ _ h]

theorem lineBreakLoop_short_eq (regions : List protectedRegion) :
    ∀ (lines : List (List Char)) (pos num : Nat),
      (∀ l ∈ lines, l.length ≤ 120) →
      lineBreakLoop regions lines pos num = (lines, []) := by
  intro lines
  induction lines with
  | nil => intro pos num _; rfl
  | cons l ls ih =>
    intro pos num h
    have hl : l.length ≤ 120 := h l (List.mem_cons_self _ _)
    have hr := ih (pos + byteLen l + 1) (num + 1) fun x hx => h x (List.mem_cons_of_mem _ hx)
    simp only [lineBreakLoop, hr]
    by_cases h1 : lineIsProtected regions pos (pos + byteLen l) = true
    · simp [h1]
    · simp only [h1, Bool.false_eq_true, if_false]
      by_cases h2 : shouldSkipLineBreaking l = true
      · simp [h2]
      · simp only [h2, Bool.false_eq_true, if_false]
        by_cases h3 : l.length ≤ 80
        · simp [h3]
        · simp only [if_neg h3]
          rw [smartLineBreak_le_max hl]
          simp

/-! ## Lemmas: rule-level consequences of empty change lists -/

theorem applySpacing_snd_nil (content : List Char) (regions : List protectedRegion)
    (h : (applySpacingRuleWithProtection content regions).2 = []) :
    (applySpacingRuleWithProtection content regions).1 = content := by
  show joinNl (spacingLoop regions (splitNl content) 0 0).1 = content
  rw [spacingLoop_snd_nil regions _ 0 0 h, joinNl_splitNl]

theorem applyPunctuation_snd_nil (content : List Char) (regions : List protectedRegion)
    (h : (applyPunctuationRuleWithProtection content regions).2 = []) :
    (applyPunctuationRuleWithProtection content regions).1 = content := by
  show joinNl (punctuationLoop punctuationPairs regions (splitNl content) 0 0).1 = content
  rw [punctuationLoop_snd_nil punctuationPairs regions _ 0 0 h, joinNl_splitNl]

theorem applyLineBreak_snd_nil (content : List Char) (regions : List protectedRegion)
    (h : (applyLineBreakRuleWithProtection content regions).2 = []) :
    (applyLineBreakRuleWithProtection content regions).1 = content := by
  show joinNl (lineBreakLoop regions (splitNl content) 0 0).1 = content
  rw [lineBreakLoop_snd_nil regions _ 0 0 h, joinNl_splitNl]

/-! ## Lemmas: the rule fold of the dispatcher -/

theorem ruleStep_acc (R : List protectedRegion) (acc : List Char × List changeInfo)
    (rule : String) :
    ruleStep R acc rule =
      ((ruleStep R (acc.1, []) rule).1, acc.2 ++ (ruleStep R (acc.1, []) rule).2) := by
  by_cases h1 : rule = "spacing"
  · simp [ruleStep, h1]
  · by_cases h2 : rule = "punctuation"
    · simp [ruleStep, h1, h2]
    · by_cases h3 : rule = "linebreaks"
      · simp [ruleStep, h1, h2, h3]
      · simp [ruleStep, h1, h2, h3]

theorem foldl_ruleStep_acc (R : List protectedRegion) :
    ∀ (rules : List String) (acc : List Char × List changeInfo),
      rules.foldl (ruleStep R) acc =
        ((rules.foldl (ruleStep R) (acc.1, [])).1,
          acc.2 ++ (rules.foldl (ruleStep R) (acc.1, [])).2) := by
  intro rules
  induction rules with
  | nil => intro acc; simp
  | cons r rs ih =>
    intro acc
    simp only [List.foldl_cons]
    rw [ruleStep_acc R acc r, ih ((ruleStep R (acc.1, []) r).1, acc.2 ++ (ruleStep R (acc.1, []) r).2),
      ih (ruleStep R (acc.1, []) r)]
    simp [List.append_assoc]

theorem ruleStep_snd_nil (R : List protectedRegion) (t : List Char) (rule : String)
    (h : (ruleStep R (t, []) rule).2 = []) : (ruleStep R (t, []) rule).1 = t := by
  by_cases h1 : rule = "spacing"
  · simp only [ruleStep, h1, if_pos, List.nil_append] at h ⊢
    exact applySpacing_snd_nil t R h
  · by_cases h2 : rule = "punctuation"
    · simp only [ruleStep, h1, h2, if_false, if_true, List.nil_append] at h ⊢
      exact applyPunctuation_snd_nil t R h
    · by_cases h3 : rule = "linebreaks"
      · simp only [ruleStep, h1, h2, h3, if_false, if_true, List.nil_append] at h ⊢
        exact applyLineBreak_snd_nil t R h
      · simp [ruleStep, h1, h2, h3]

theorem foldl_ruleStep_nil (R : List protectedRegion) :
    ∀ (rules : List String) (t : List Char),
      (rules.foldl (ruleStep R) (t, [])).2 = [] →
      (rules.foldl (ruleStep R) (t, [])).1 = t := by
  intro rules
  induction rules with
  | nil => intro t _; rfl
  | cons r rs ih =>
    intro t h
    simp only [List.foldl_cons] at h ⊢
    rw [foldl_ruleStep_acc R rs (ruleStep R (t, []) r)] at h ⊢
    rw [List.append_eq_nil] at h
    have hs := ruleStep_snd_nil R t r h.1
    rw [ih (ruleStep R (t, []) r).1 h.2, hs]

/-! ## Lemmas: the spacing substitutions equal the single-pass insertion -/

theorem cjk_not_alnum {c : Char} (h : inCjkRange c = true) : isAsciiAlnum c = false := by
  simp only [inCjkRange, Bool.and_eq_true, decide_eq_true_eq] at h
  simp only [isAsciiAlnum, Bool.or_eq_false_iff, Bool.and_eq_false_iff,
    decide_eq_false_iff_not, not_le]
  omega

theorem alnum_not_cjk {c : Char} (h : isAsciiAlnum c = true) : inCjkRange c = false := by
  simp only [isAsciiAlnum, Bool.or_eq_true, Bool.and_eq_true, decide_eq_true_eq] at h
  simp only [inCjkRange, Bool.and_eq_false_iff, decide_eq_false_iff_not, not_le]
  omega

theorem replacePair_cons_two (p q : Char → Bool) (c1 c2 : Char) (r : List Char) :
    replacePair p q (c1 :: c2 :: r) =
      if p c1 && q c2 then c1 :: ' ' :: c2 :: replacePair p q r
      else c1 :: replacePair p q (c2 :: r) := rfl

theorem replacePair_cons_of_not {p q : Char → Bool} {c : Char} (h : p c = false) :
    ∀ r : List Char, replacePair p q (c :: r) = c :: replacePair p q r := by
  intro r
  cases r with
  | nil => rfl
  | cons d r' => rw [replacePair_cons_two, if_neg (by simp [h])]

theorem replacePair_head (p q : Char → Bool) (c : Char) (r : List Char) :
    ∃ t, replacePair p q (c :: r) = c :: t := by
  cases r with
  | nil => exact ⟨[], rfl⟩
  | cons d r' =>
    rw [replacePair_cons_two]
    by_cases h : (p c && q d) = true
    · exact ⟨' ' :: d :: replacePair p q r', by rw [if_pos h]⟩
    · exact ⟨replacePair p q (d :: r'), by rw [if_neg h]⟩

theorem replacePair_of_no_match (p q : Char → Bool) :
    ∀ l, matchPair p q l = false → replacePair p q l = l := by
  refine twoStep_ind ?_ ?_ ?_
  · intro _; rfl
  · intro c _; rfl
  · intro c1 c2 r _ ihcr h
    simp only [matchPair, Bool.or_eq_false_iff] at h
    rw [replacePair_cons_two, if_neg (by simp [h.1]), ihcr h.2]

theorem spacingLine_eq (l : List Char) :
    spacingLine l =
      replacePair isAsciiAlnum inCjkRange (replacePair inCjkRange isAsciiAlnum l) := by
  simp only [spacingLine]
  by_cases h1 : matchPair inCjkRange isAsciiAlnum l = true
  · rw [if_pos h1]
    by_cases h2 :
        matchPair isAsciiAlnum inCjkRange (replacePair inCjkRange isAsciiAlnum l) = true
    · rw [if_pos h2]
    · rw [if_neg h2]
      exact (replacePair_of_no_match isAsciiAlnum inCjkRange
        (replacePair inCjkRange isAsciiAlnum l) (Bool.not_eq_true _ ▸ h2)).symm
  · rw [if_neg h1]
    have e1 : replacePair inCjkRange isAsciiAlnum l = l :=
      replacePair_of_no_match inCjkRange isAsciiAlnum l (Bool.not_eq_true _ ▸ h1)
    rw [e1]
    by_cases h2 : matchPair isAsciiAlnum inCjkRange l = true
    · rw [if_pos h2]
    · rw [if_neg h2]
      exact (replacePair_of_no_match isAsciiAlnum inCjkRange l
        (Bool.not_eq_true _ ▸ h2)).symm

theorem specInsertSpaces_cons_two (c1 c2 : Char) (r : List Char) :
    specInsertSpaces (c1 :: c2 :: r) =
      if spacingBoundary c1 c2 then c1 :: ' ' :: specInsertSpaces (c2 :: r)
      else c1 :: specInsertSpaces (c2 :: r) := rfl

theorem alnum_space : isAsciiAlnum ' ' = false := by decide

theorem spacingLine_eq_spec : ∀ l, spacingLine l = specInsertSpaces l := by
  have main : ∀ l,
      replacePair isAsciiAlnum inCjkRange (replacePair inCjkRange isAsciiAlnum l) =
        specInsertSpaces l := by
    refine twoStep_ind ?_ ?_ ?_
    · rfl
    · intro c; rfl
    · intro c1 c2 r ihr ihcr
      by_cases hA : (inCjkRange c1 && isAsciiAlnum c2) = true
      · -- the first substitution rewrites the front pair
        have hc1 : inCjkRange c1 = true := by
          have := hA; rw [Bool.and_eq_true] at this; exact this.1
        have hc2 : isAsciiAlnum c2 = true := by
          have := hA; rw [Bool.and_eq_true] at this; exact this.2
        rw [replacePair_cons_two inCjkRange isAsciiAlnum c1 c2 r, if_pos hA]
        rw [replacePair_cons_two isAsciiAlnum inCjkRange c1 ' ',
          if_neg (by simp [cjk_not_alnum hc1])]
        rw [replacePair_cons_two isAsciiAlnum inCjkRange ' ' c2,
          if_neg (by simp [alnum_space])]
        rw [← replacePair_cons_of_not (alnum_not_cjk hc2) r, ihcr]
        have hb : spacingBoundary c1 c2 = true := by simp [spacingBoundary, hc1, hc2]
        rw [specInsertSpaces_cons_two, if_pos hb]
      · rw [replacePair_cons_two inCjkRange isAsciiAlnum c1 c2 r, if_neg (by simp [hA])]
        by_cases hB : (isAsciiAlnum c1 && inCjkRange c2) = true
        · -- only the second substitution rewrites the front pair
          have hc1 : isAsciiAlnum c1 = true := by
            have := hB; rw [Bool.and_eq_true] at this; exact this.1
          have hc2 : inCjkRange c2 = true := by
            have := hB; rw [Bool.and_eq_true] at this; exact this.2
          have hb : spacingBoundary c1 c2 = true := by
            simp [spacingBoundary, hc1, hc2]
          cases r with
          | nil =>
            rw [show replacePair inCjkRange isAsciiAlnum [c2] = [c2] from rfl]
            rw [replacePair_cons_two isAsciiAlnum inCjkRange c1 c2 [], if_pos hB]
            rw [specInsertSpaces_cons_two, if_pos hb]
            rfl
          | cons r0 r' =>
            by_cases hq : isAsciiAlnum r0 = true
            · have hm : (inCjkRange c2 && isAsciiAlnum r0) = true := by simp [hc2, hq]
              rw [replacePair_cons_two inCjkRange isAsciiAlnum c2 r0 r', if_pos hm]
              rw [replacePair_cons_two isAsciiAlnum inCjkRange c1 c2, if_pos hB]
              rw [replacePair_cons_two isAsciiAlnum inCjkRange ' ' r0,
                if_neg (by simp [alnum_space])]
              rw [← replacePair_cons_of_not (alnum_not_cjk hq) r', ihr]
              have hb2 : spacingBoundary c2 r0 = true := by simp [spacingBoundary, hc2, hq]
              rw [specInsertSpaces_cons_two c1 c2, if_pos hb,
                specInsertSpaces_cons_two c2 r0, if_pos hb2]
            · have hq2 : isAsciiAlnum r0 = false := by simpa using hq
              rw [replacePair_cons_two inCjkRange isAsciiAlnum c2 r0 r',
                if_neg (by simp [hq2])]
              rw [replacePair_cons_two isAsciiAlnum inCjkRange c1 c2, if_pos hB]
              rw [ihr]
              have hb2 : spacingBoundary c2 r0 = false := by
                simp [spacingBoundary, hq2, cjk_not_alnum hc2]
              rw [specInsertSpaces_cons_two c1 c2, if_pos hb,
                specInsertSpaces_cons_two c2 r0, if_neg (by simp [hb2])]
        · -- neither substitution touches the front pair
          obtain ⟨t, ht⟩ := replacePair_head inCjkRange isAsciiAlnum c2 r
          rw [ht, replacePair_cons_two isAsciiAlnum inCjkRange c1 c2, if_neg (by simp [hB]),
            ← ht, ihcr]
          have hb : spacingBoundary c1 c2 = false := by
            simp only [spacingBoundary, Bool.or_eq_false_iff]
            constructor
            · simpa using hA
            · simpa using hB
          rw [specInsertSpaces_cons_two, if_neg (by simp [hb])]
  intro l
  rw [spacingLine_eq, main]

/-! ## Lemmas: the spacing pass is idempotent -/

theorem spacingBoundary_space_left (c : Char) : spacingBoundary ' ' c = false := by
  simp [spacingBoundary, show inCjkRange ' ' = false by decide,
    show isAsciiAlnum ' ' = false by decide]

theorem spacingBoundary_space_right (c : Char) : spacingBoundary c ' ' = false := by
  simp [spacingBoundary, show inCjkRange ' ' = false by decide,
    show isAsciiAlnum ' ' = false by decide]

theorem specInsertSpaces_head (c : Char) (r : List Char) :
    ∃ t, specInsertSpaces (c :: r) = c :: t := by
  cases r with
  | nil => exact ⟨[], rfl⟩
  | cons d r' =>
    rw [specInsertSpaces_cons_two]
    by_cases h : spacingBoundary c d = true
    · exact ⟨' ' :: specInsertSpaces (d :: r'), by rw [if_pos h]⟩
    · exact ⟨specInsertSpaces (d :: r'), by rw [if_neg h]⟩

theorem specInsertSpaces_no_bdy : ∀ l, hasBdy (specInsertSpaces l) = false := by
  refine twoStep_ind ?_ ?_ ?_
  · rfl
  · intro c; rfl
  · intro c1 c2 r _ ihcr
    obtain ⟨t, ht⟩ := specInsertSpaces_head c2 r
    rw [specInsertSpaces_cons_two]
    by_cases h : spacingBoundary c1 c2 = true
    · rw [if_pos h, ht]
      show (spacingBoundary c1 ' ' || hasBdy (' ' :: c2 :: t)) = false
      rw [spacingBoundary_space_right]
      show hasBdy (' ' :: c2 :: t) = false
      show (spacingBoundary ' ' c2 || hasBdy (c2 :: t)) = false
      rw [spacingBoundary_space_left, ← ht, ihcr]
      rfl
    · rw [if_neg h, ht]
      show (spacingBoundary c1 c2 || hasBdy (c2 :: t)) = false
      rw [← ht, ihcr]
      simpa using h

theorem specInsertSpaces_of_no_bdy : ∀ l, hasBdy l = false → specInsertSpaces l = l := by
  refine twoStep_ind ?_ ?_ ?_
  · intro _; rfl
  · intro c _; rfl
  · intro c1 c2 r _ ihcr h
    have h' : (spacingBoundary c1 c2 || hasBdy (c2 :: r)) = false := h
    rw [Bool.or_eq_false_iff] at h'
    rw [specInsertSpaces_cons_two, if_neg (by simp [h'.1]), ihcr h'.2]

theorem spacingLine_idem (l : List Char) : spacingLine (spacingLine l) = spacingLine l := by
  rw [spacingLine_eq_spec, spacingLine_eq_spec,
    specInsertSpaces_of_no_bdy _ (specInsertSpaces_no_bdy l)]

/-! ## Lemmas: punctuation conversions and the stability of their guards

A single `strings.ReplaceAll(l, m, f)` with single-rune arguments is the
character map sending `m` to `f`.  The guard patterns of the colon and
exclamation exclusions never mention the other marks nor their full-width
images, so replacing one mark leaves every other mark's guard value
unchanged; this is what makes the Go map-iteration order irrelevant. -/

theorem replaceAllChar_cons (c : Char) (cs : List Char) (m f : Char) :
    replaceAllChar (c :: cs) m f =
      (if c = m then f else c) :: replaceAllChar cs m f := rfl

theorem listLeads_replace {m f : Char} :
    ∀ (pat l : List Char), m ∉ pat → f ∉ pat →
      listLeads pat (replaceAllChar l m f) = listLeads pat l := by
  intro pat
  induction pat with
  | nil => intro l _ _; rfl
  | cons p ps ih =>
    intro l hm hf
    cases l with
    | nil => rfl
    | cons c cs =>
      rw [replaceAllChar_cons]
      show (decide (p = if c = m then f else c) && _) = (decide (p = c) && _)
      rw [ih cs (fun h => hm (List.mem_cons_of_mem p h))
        (fun h => hf (List.mem_cons_of_mem p h))]
      by_cases hc : c = m
      · subst hc
        have hpf : p ≠ f := fun h => hf (h ▸ List.mem_cons_self p ps)
        have hpc : p ≠ c := fun h => hm (h ▸ List.mem_cons_self p ps)
        simp [hpf, hpc]
      · simp [hc]

theorem containsSub_replace {m f : Char} (pat : List Char) (hm : m ∉ pat) (hf : f ∉ pat) :
    ∀ l, containsSub (replaceAllChar l m f) pat = containsSub l pat := by
  intro l
  induction l with
  | nil => rfl
  | cons c cs ih =>
    rw [replaceAllChar_cons]
    show (listLeads pat _ || containsSub (replaceAllChar cs m f) pat) = _
    rw [ih, ← replaceAllChar_cons, listLeads_replace pat (c :: cs) hm hf]
    rfl

theorem hasDCD_replace {m f : Char} (h3 : isDigitChar m = false) (h4 : isDigitChar f = false)
    (h5 : m ≠ ':') (h6 : f ≠ ':') :
    ∀ l, hasDigitColonDigit (replaceAllChar l m f) = hasDigitColonDigit l := by
  have hdig : ∀ x, isDigitChar (if x = m then f else x) = isDigitChar x := by
    intro x
    by_cases hx : x = m
    · subst hx; simp [h3, h4]
    · simp [hx]
  have hcol : ∀ x, (decide ((if x = m then f else x) = ':')) = (decide (x = ':')) := by
    intro x
    by_cases hx : x = m
    · subst hx
      simp [h6, h5]
    · simp [hx]
  refine threeStep_ind ?_ ?_ ?_ ?_
  · rfl
  · intro c; rfl
  · intro c1 c2; rfl
  · intro a b c r ih
    rw [replaceAllChar_cons, replaceAllChar_cons, replaceAllChar_cons]
    show ((isDigitChar _ && _ && isDigitChar _) || hasDigitColonDigit _) = _
    rw [← replaceAllChar_cons, ← replaceAllChar_cons, ih]
    rw [hdig a, hdig c, hcol b]
    rfl

theorem dropWhile_replace {m f : Char} (p : Char → Bool)
    (hp : ∀ x, p (if x = m then f else x) = p x) (l : List Char) :
    (replaceAllChar l m f).dropWhile p = replaceAllChar (l.dropWhile p) m f := by
  simp only [replaceAllChar, List.dropWhile_map]
  have hpe : (p ∘ fun x => if x = m then f else x) = p := funext hp
  rw [hpe]

theorem takeWhile_replace {m f : Char} (p : Char → Bool)
    (hp : ∀ x, p (if x = m then f else x) = p x) (l : List Char) :
    (replaceAllChar l m f).takeWhile p = replaceAllChar (l.takeWhile p) m f := by
  simp only [replaceAllChar, List.takeWhile_map]
  have hpe : (p ∘ fun x => if x = m then f else x) = p := funext hp
  rw [hpe]

theorem leadingKey_replace {m f : Char}
    (h5 : m ≠ ':') (h6 : f ≠ ':')
    (h7 : isRegexSpace m = false) (h8 : isRegexSpace f = false)
    (h9 : isWordChar m = false) (h10 : isWordChar f = false) :
    ∀ l, leadingKeyMatch (replaceAllChar l m f) = leadingKeyMatch l := by
  intro l
  have hsp : ∀ x, isRegexSpace (if x = m then f else x) = isRegexSpace x := by
    intro x; by_cases hx : x = m
    · subst hx; simp [h7, h8]
    · simp [hx]
  have hw : ∀ x, isWordChar (if x = m then f else x) = isWordChar x := by
    intro x; by_cases hx : x = m
    · subst hx; simp [h9, h10]
    · simp [hx]
  simp only [leadingKeyMatch]
  rw [dropWhile_replace isRegexSpace hsp l,
    dropWhile_replace isWordChar hw (l.dropWhile isRegexSpace),
    takeWhile_replace isWordChar hw (l.dropWhile isRegexSpace)]
  set A := l.dropWhile isRegexSpace with hA
  cases hD : A.dropWhile isWordChar with
  | nil => rfl
  | cons c rest =>
    cases rest with
    | nil => rfl
    | cons d rest2 =>
      rw [replaceAllChar_cons, replaceAllChar_cons]
      show (!(replaceAllChar (A.takeWhile isWordChar) m f).isEmpty &&
          decide ((if c = m then f else c) = ':') &&
          isRegexSpace (if d = m then f else d)) =
        (!(A.takeWhile isWordChar).isEmpty && decide (c = ':') && isRegexSpace d)
      have e1 : (replaceAllChar (A.takeWhile isWordChar) m f).isEmpty =
          (A.takeWhile isWordChar).isEmpty := by
        cases A.takeWhile isWordChar <;> rfl
      have e2 : decide ((if c = m then f else c) = ':') = decide (c = ':') := by
        by_cases hc : c = m
        · subst hc; simp [h6, h5]
        · simp [hc]
      rw [e1, e2, hsp d]

theorem colonExcluded_replace {m f : Char}
    (h1 : m ∉ (("://").data)) (h2 : f ∉ (("://").data))
    (h3 : isDigitChar m = false) (h4 : isDigitChar f = false)
    (h5 : m ≠ ':') (h6 : f ≠ ':')
    (h7 : isRegexSpace m = false) (h8 : isRegexSpace f = false)
    (h9 : isWordChar m = false) (h10 : isWordChar f = false)
    (l : List Char) :
    colonExcluded (replaceAllChar l m f) = colonExcluded l := by
  simp only [colonExcluded]
  rw [containsSub_replace _ h1 h2 l, hasDCD_replace h3 h4 h5 h6 l,
    leadingKey_replace h5 h6 h7 h8 h9 h10 l]

theorem bangExcluded_replace {m f : Char}
    (ha : m ∉ (("![").data)) (hb : f ∉ (("![").data))
    (hc : m ∉ (("<!--").data)) (hd : f ∉ (("<!--").data))
    (he : m ∉ (("`!").data)) (hf : f ∉ (("`!").data))
    (hg : m ∉ (("!`").data)) (hh : f ∉ (("!`").data))
    (hi : m ∉ (("（`！`）").data)) (hj : f ∉ (("（`！`）").data))
    (hk : m ∉ (("(`!`)").data)) (hl : f ∉ (("(`!`)").data))
    (l : List Char) :
    bangExcluded (replaceAllChar l m f) = bangExcluded l := by
  simp only [bangExcluded]
  rw [containsSub_replace _ ha hb, containsSub_replace _ hc hd, containsSub_replace _ he hf,
    containsSub_replace _ hg hh, containsSub_replace _ hi hj, containsSub_replace _ hk hl]

theorem punctStep_eq_ite (l : List Char) (p : Char × Char) :
    punctStep l p = if guardB p l then replaceAllChar l p.1 p.2 else l := by
  simp only [punctStep, guardB]
  by_cases bA : (decide (p.1 = ':') && colonExcluded l) = true
  · simp [bA]
  · by_cases bB : (decide (p.1 = '!') && bangExcluded l) = true
    · simp [bA, bB]
    · by_cases bC : containsSub l [p.1] = true
      · simp [bA, bB, bC]
      · simp [bA, bB, bC]

theorem guardB_other_replace {a b m f : Char} (ha1 : a ≠ ':') (ha2 : a ≠ '!')
    (hm : m ≠ a) (hf : f ≠ a) (l : List Char) :
    guardB (a, b) (replaceAllChar l m f) = guardB (a, b) l := by
  simp only [guardB]
  rw [containsSub_replace [a] (by simp [hm]) (by simp [hf]) l]
  simp [ha1, ha2]

theorem guardB_colon_replace {b m f : Char}
    (h1 : m ∉ (("://").data)) (h2 : f ∉ (("://").data))
    (h3 : isDigitChar m = false) (h4 : isDigitChar f = false)
    (h5 : m ≠ ':') (h6 : f ≠ ':')
    (h7 : isRegexSpace m = false) (h8 : isRegexSpace f = false)
    (h9 : isWordChar m = false) (h10 : isWordChar f = false)
    (l : List Char) :
    guardB (':', b) (replaceAllChar l m f) = guardB (':', b) l := by
  simp only [guardB]
  rw [colonExcluded_replace h1 h2 h3 h4 h5 h6 h7 h8 h9 h10 l,
    containsSub_replace [':'] (by simp [h5]) (by simp [h6]) l]
  simp

theorem guardB_bang_replace {b m f : Char}
    (ha : m ∉ (("![").data)) (hb : f ∉ (("![").data))
    (hc : m ∉ (("<!--").data)) (hd : f ∉ (("<!--").data))
    (he : m ∉ (("`!").data)) (hf : f ∉ (("`!").data))
    (hg : m ∉ (("!`").data)) (hh : f ∉ (("!`").data))
    (hi : m ∉ (("（`！`）").data)) (hj : f ∉ (("（`！`）").data))
    (hk : m ∉ (("(`!`)").data)) (hl : f ∉ (("(`!`)").data))
    (hm : m ≠ '!') (hfx : f ≠ '!')
    (l : List Char) :
    guardB ('!', b) (replaceAllChar l m f) = guardB ('!', b) l := by
  simp only [guardB]
  rw [bangExcluded_replace ha hb hc hd he hf hg hh hi hj hk hl l,
    containsSub_replace ['!'] (by simp [hm]) (by simp [hfx]) l]
  simp

theorem replaceAllChar_comm {m f m' f' : Char} (h1 : m ≠ m') (h2 : f ≠ m') (h3 : f' ≠ m)
    (l : List Char) :
    replaceAllChar (replaceAllChar l m f) m' f' = replaceAllChar (replaceAllChar l m' f') m f := by
  simp only [replaceAllChar, List.map_map]
  congr 1
  funext c
  simp only [Function.comp]
  by_cases hc : c = m
  · subst hc
    simp [h1, h2]
  · by_cases hc' : c = m'
    · subst hc'
      simp [Ne.symm h1, h3]
    · simp [hc, hc']

theorem punctStep_comm_of {l : List Char} {x y : Char × Char}
    (hgx : ∀ t, guardB x (replaceAllChar t y.1 y.2) = guardB x t)
    (hgy : ∀ t, guardB y (replaceAllChar t x.1 x.2) = guardB y t)
    (hcm : ∀ t, replaceAllChar (replaceAllChar t x.1 x.2) y.1 y.2 =
      replaceAllChar (replaceAllChar t y.1 y.2) x.1 x.2) :
    punctStep (punctStep l x) y = punctStep (punctStep l y) x := by
  rw [punctStep_eq_ite l x, punctStep_eq_ite l y]
  by_cases gx : guardB x l = true
  · by_cases gy : guardB y l = true
    · rw [if_pos gx, if_pos gy, punctStep_eq_ite, punctStep_eq_ite, hgy l, hgx l,
        if_pos gy, if_pos gx, hcm l]
    · rw [if_pos gx, if_neg gy, punctStep_eq_ite, punctStep_eq_ite, hgy l,
        if_neg gy, if_pos gx]
  · by_cases gy : guardB y l = true
    · rw [if_neg gx, if_pos gy, punctStep_eq_ite, punctStep_eq_ite, hgx l,
        if_pos gy, if_neg gx]
    · rw [if_neg gx, if_neg gy, punctStep_eq_ite, punctStep_eq_ite, if_neg gy, if_neg gx]

theorem punctStep_comm_pairs :
    ∀ x ∈ punctuationPairs, ∀ y ∈ punctuationPairs, ∀ l,
      punctStep (punctStep l x) y = punctStep (punctStep l y) x := by
  intro x hx y hy l
  fin_cases hx <;> fin_cases hy <;>
    first
      | rfl
      | (refine punctStep_comm_of (fun t => ?_) (fun t => ?_)
            (fun t => replaceAllChar_comm (by decide) (by decide) (by decide) t) <;>
          first
            | exact guardB_other_replace (by decide) (by decide) (by decide) (by decide) t
            | exact guardB_colon_replace (by decide) (by decide) (by decide) (by decide)
                (by decide) (by decide) (by decide) (by decide) (by decide) (by decide) t
            | exact guardB_bang_replace (by decide) (by decide) (by decide) (by decide)
                (by decide) (by decide) (by decide) (by decide) (by decide) (by decide)
                (by decide) (by decide) (by decide) (by decide) t)

theorem punctLine_perm {order : List (Char × Char)} (h : order.Perm punctuationPairs)
    (l : List Char) : punctLine order l = punctLine punctuationPairs l := by
  refine h.foldl_eq' ?_ l
  intro x hx y hy z
  exact punctStep_comm_pairs x (h.mem_iff.mp hx) y (h.mem_iff.mp hy) z

theorem punctuationLoop_perm {order : List (Char × Char)} (h : order.Perm punctuationPairs)
    (regions : List protectedRegion) :
    ∀ (lines : List (List Char)) (pos num : Nat),
      punctuationLoop order regions lines pos num =
        punctuationLoop punctuationPairs regions lines pos num := by
  intro lines
  induction lines with
  | nil => intro pos num; rfl
  | cons l ls ih =>
    intro pos num
    simp only [punctuationLoop, punctLine_perm h, ih]

theorem applyPunctuationOrd_perm {order : List (Char × Char)}
    (h : order.Perm punctuationPairs) (content : List Char) (regions : List protectedRegion) :
    applyPunctuationRuleWithProtectionOrd order content regions =
      applyPunctuationRuleWithProtection content regions := by
  show (joinNl (punctuationLoop order regions (splitNl content) 0 0).1,
      (punctuationLoop order regions (splitNl content) 0 0).2) = _
  rw [punctuationLoop_perm h]
  rfl

/-! ## Lemmas: what the canonical conversion chain does to single positions -/

theorem punctLine_unfold (l : List Char) :
    punctLine punctuationPairs l =
      punctStep (punctStep (punctStep (punctStep (punctStep l (',', '，'))
        (';', '；')) (':', '：')) ('!', '！')) ('?', '？') := rfl

theorem punctStep_apply {l : List Char} {p : Char × Char} (hg : guardB p l = true) :
    punctStep l p = replaceAllChar l p.1 p.2 := by
  rw [punctStep_eq_ite, if_pos hg]

theorem punctStep_colon_id {l : List Char} (hcol : colonExcluded l = true) :
    punctStep l (':', '：') = l := by
  simp [punctStep, hcol]

theorem punctStep_bang_id {l : List Char} (hbang : bangExcluded l = true) :
    punctStep l ('!', '！') = l := by
  simp [punctStep, hbang]

theorem colonExcluded_punctStep {p : Char × Char}
    (h1 : p.1 ∉ (("://").data)) (h2 : p.2 ∉ (("://").data))
    (h3 : isDigitChar p.1 = false) (h4 : isDigitChar p.2 = false)
    (h5 : p.1 ≠ ':') (h6 : p.2 ≠ ':')
    (h7 : isRegexSpace p.1 = false) (h8 : isRegexSpace p.2 = false)
    (h9 : isWordChar p.1 = false) (h10 : isWordChar p.2 = false)
    (l : List Char) : colonExcluded (punctStep l p) = colonExcluded l := by
  rw [punctStep_eq_ite]
  split
  · exact colonExcluded_replace h1 h2 h3 h4 h5 h6 h7 h8 h9 h10 l
  · rfl

theorem bangExcluded_punctStep {p : Char × Char}
    (ha : p.1 ∉ (("![").data)) (hb : p.2 ∉ (("![").data))
    (hc : p.1 ∉ (("<!--").data)) (hd : p.2 ∉ (("<!--").data))
    (he : p.1 ∉ (("`!").data)) (hf : p.2 ∉ (("`!").data))
    (hg : p.1 ∉ (("!`").data)) (hh : p.2 ∉ (("!`").data))
    (hi : p.1 ∉ (("（`！`）").data)) (hj : p.2 ∉ (("（`！`）").data))
    (hk : p.1 ∉ (("(`!`)").data)) (hl : p.2 ∉ (("(`!`)").data))
    (l : List Char) : bangExcluded (punctStep l p) = bangExcluded l := by
  rw [punctStep_eq_ite]
  split
  · exact bangExcluded_replace ha hb hc hd he hf hg hh hi hj hk hl l
  · rfl

theorem punctStep_pos_iff {p : Char × Char} {x : Char} (h1 : p.1 ≠ x) (h2 : p.2 ≠ x)
    (l : List Char) (j : Nat) :
    ((punctStep l p)[j]? = some x) ↔ (l[j]? = some x) := by
  rw [punctStep_eq_ite]
  split
  · simp only [replaceAllChar, List.getElem?_map]
    cases hj : l[j]? with
    | none => simp
    | some c =>
      by_cases hcp : c = p.1
      · subst hcp
        simp [h1, h2]
      · simp [hcp]
  · exact Iff.rfl

theorem punctStep_pos_of {p : Char × Char} {x : Char} (h1 : x ≠ p.1) {l : List Char} {j : Nat}
    (hj : l[j]? = some x) : (punctStep l p)[j]? = some x := by
  rw [punctStep_eq_ite]
  split
  · simp only [replaceAllChar, List.getElem?_map, hj, Option.map_some]
    simp [h1]
  · exact hj

theorem punctLine_colon_pos {l : List Char} (hcol : colonExcluded l = true) (j : Nat) :
    ((punctLine punctuationPairs l)[j]? = some ':') ↔ (l[j]? = some ':') := by
  rw [punctLine_unfold]
  have e1 : colonExcluded (punctStep l (',', '，')) = colonExcluded l :=
    colonExcluded_punctStep (by decide) (by decide) (by decide) (by decide) (by decide)
      (by decide) (by decide) (by decide) (by decide) (by decide) l
  have e2 : colonExcluded (punctStep (punctStep l (',', '，')) (';', '；')) =
      colonExcluded (punctStep l (',', '，')) :=
    colonExcluded_punctStep (by decide) (by decide) (by decide) (by decide) (by decide)
      (by decide) (by decide) (by decide) (by decide) (by decide) _
  rw [punctStep_colon_id (by rw [e2, e1]; exact hcol)]
  exact Iff.trans (punctStep_pos_iff (by decide) (by decide) _ j)
    (Iff.trans (punctStep_pos_iff (by decide) (by decide) _ j)
      (Iff.trans (punctStep_pos_iff (by decide) (by decide) _ j)
        (punctStep_pos_iff (by decide) (by decide) _ j)))

theorem punctLine_bang_pos {l : List Char} (hbang : bangExcluded l = true) (j : Nat) :
    ((punctLine punctuationPairs l)[j]? = some '!') ↔ (l[j]? = some '!') := by
  rw [punctLine_unfold]
  have e1 : bangExcluded (punctStep l (',', '，')) = bangExcluded l :=
    bangExcluded_punctStep (by decide) (by decide) (by decide) (by decide) (by decide)
      (by decide) (by decide) (by decide) (by decide) (by decide) (by decide) (by decide) l
  have e2 : bangExcluded (punctStep (punctStep l (',', '，')) (';', '；')) =
      bangExcluded (punctStep l (',', '，')) :=
    bangExcluded_punctStep (by decide) (by decide) (by decide) (by decide) (by decide)
      (by decide) (by decide) (by decide) (by decide) (by decide) (by decide) (by decide) _
  have e3 : bangExcluded (punctStep (punctStep (punctStep l (',', '，')) (';', '；'))
      (':', '：')) = bangExcluded (punctStep (punctStep l (',', '，')) (';', '；')) :=
    bangExcluded_punctStep (by decide) (by decide) (by decide) (by decide) (by decide)
      (by decide) (by decide) (by decide) (by decide) (by decide) (by decide) (by decide) _
  rw [punctStep_bang_id (by rw [e3, e2, e1]; exact hbang)]
  exact Iff.trans (punctStep_pos_iff (by decide) (by decide) _ j)
    (Iff.trans (punctStep_pos_iff (by decide) (by decide) _ j)
      (Iff.trans (punctStep_pos_iff (by decide) (by decide) _ j)
        (punctStep_pos_iff (by decide) (by decide) _ j)))

theorem punctLine_comma_conv {l : List Char} (hcon : containsSub l [','] = true)
    {j : Nat} (hj : l[j]? = some ',') :
    (punctLine punctuationPairs l)[j]? = some '，' := by
  rw [punctLine_unfold]
  have hg : guardB (',', '，') l = true := by
    simp [guardB, hcon]
  rw [punctStep_apply hg]
  have h1 : (replaceAllChar l ',' '，')[j]? = some '，' := by
    simp [replaceAllChar, List.getElem?_map, hj]
  exact punctStep_pos_of (by decide)
    (punctStep_pos_of (by decide) (punctStep_pos_of (by decide)
      (punctStep_pos_of (by decide) h1)))

/-! ## Lemmas: the region scanner on open comments and open fences -/

theorem mem_insertReg {x r : protectedRegion} :
    ∀ {rs : List protectedRegion}, x ∈ insertReg r rs ↔ x = r ∨ x ∈ rs := by
  intro rs
  induction rs with
  | nil => simp [insertReg]
  | cons y ys ih =>
    simp only [insertReg]
    split
    · simp [List.mem_cons]
    · simp only [List.mem_cons, ih]
      tauto

theorem mem_sortByStart {x : protectedRegion} :
    ∀ {rs : List protectedRegion}, x ∈ sortByStart rs ↔ x ∈ rs := by
  intro rs
  induction rs with
  | nil => simp [sortByStart]
  | cons r rs ih =>
    simp only [sortByStart, mem_insertReg, ih, List.mem_cons]

theorem scanLines_inCB :
    ∀ (lines : List (List Char)) (pos : Nat) (inHC inHS : Bool) (cbS cmS hgS : Nat),
      (∀ l ∈ lines, listLeads (("```").data) (trimSpace l) = false) →
      scanLines lines pos true inHC inHS cbS cmS hgS = [] := by
  intro lines
  induction lines with
  | nil => intro pos inHC inHS cbS cmS hgS _; rfl
  | cons l ls ih =>
    intro pos inHC inHS cbS cmS hgS h
    have hf : listLeads (("```").data) (trimSpace l) = false := (h l (List.mem_cons_self l ls))
    simp only [scanLines, hf, Bool.false_and, Bool.not_false, Bool.false_eq_true, if_false,
      Bool.not_true, Bool.true_and, Bool.and_true, if_true]
    exact ih _ inHC inHS cbS cmS hgS fun x hx => h x (List.mem_cons_of_mem l hx)

/-- One scanner step on a line while an HTML comment is open (or being
opened), that is neither a fence line nor contains the comment closer:
the whole line is emitted as an `html_comment` region, and the comment
stays (or becomes) open. -/
theorem scanLines_cons_open (l : List Char) (ls : List (List Char)) (pos : Nat)
    (inHC inHS : Bool) (cbS cmS hgS : Nat)
    (hfence : listLeads (("```").data) (trimSpace l) = false)
    (hcl : containsSub l (("-->").data) = false)
    (hopen : inHC = true ∨ containsSub l (("<!--").data) = true) :
    ∃ pre inHS2 cm2 hg2,
      scanLines (l :: ls) pos false inHC inHS cbS cmS hgS =
        pre ++ { start := pos, stop := pos + byteLen l, regionType := "html_comment" } ::
          scanLines ls (pos + byteLen l + 1) false true inHS2 cbS cm2 hg2 := by
  have hinHC1 : (if containsSub l (("<!--").data) && !inHC then true else inHC) = true := by
    rcases hopen with h | h
    · rw [h]; split <;> rfl
    · rw [h]
      cases inHC <;> rfl
  simp only [scanLines, hfence, Bool.false_and, Bool.not_false, Bool.false_eq_true, if_false,
    Bool.and_false, Bool.not_true, Bool.true_and, Bool.and_true, hcl, hinHC1, if_true,
    Bool.true_or, List.nil_append, List.append_assoc, List.singleton_append]
  exact ⟨_, _, _, _, rfl⟩

theorem scanLines_open_comment :
    ∀ (lines : List (List Char)) (pos : Nat) (inHS : Bool) (cbS cmS hgS : Nat),
      (∀ l ∈ lines, listLeads (("```").data) (trimSpace l) = false ∧
        containsSub l (("-->").data) = false) →
      ∀ (i : Nat) (li : List Char), lines[i]? = some li →
        ∃ r ∈ scanLines lines pos false true inHS cbS cmS hgS,
          r.start ≤ pos + lineStartPos lines i ∧
            pos + lineStartPos lines i + byteLen li ≤ r.stop := by
  intro lines
  induction lines with
  | nil => intro pos inHS cbS cmS hgS _ i li hli; simp at hli
  | cons l ls ih =>
    intro pos inHS cbS cmS hgS h i li hli
    have hl := h l (List.mem_cons_self l ls)
    obtain ⟨pre, inHS2, cm2, hg2, heq⟩ :=
      scanLines_cons_open l ls pos true inHS cbS cmS hgS hl.1 hl.2 (Or.inl rfl)
    rw [heq]
    cases i with
    | zero =>
      rw [List.getElem?_cons_zero] at hli
      cases Option.some.inj hli
      refine ⟨{ start := pos, stop := pos + byteLen l, regionType := "html_comment" },
        ?_, ?_, ?_⟩
      · exact List.mem_append.mpr (Or.inr (List.mem_cons_self _ _))
      · simp [lineStartPos]
      · simp [lineStartPos]
    | succ j =>
      rw [List.getElem?_cons_succ] at hli
      obtain ⟨r, hmem, hlo, hhi⟩ := ih (pos + byteLen l + 1) inHS2 cbS cm2 hg2
        (fun x hx => h x (List.mem_cons_of_mem l hx)) j li hli
      have harith : pos + lineStartPos (l :: ls) (j + 1) =
          pos + byteLen l + 1 + lineStartPos ls j := by
        simp only [lineStartPos]; omega
      refine ⟨r, ?_, ?_, ?_⟩
      · exact List.mem_append.mpr (Or.inr (List.mem_cons_of_mem _ hmem))
      · rw [harith]; exact hlo
      · rw [harith]; exact hhi

theorem fence_scan_nil (content f0 : List Char) (rest : List (List Char))
    (hsplit : splitNl content = f0 :: rest)
    (hf : listLeads (("```").data) (trimSpace f0) = true)
    (hrest : ∀ l ∈ rest, listLeads (("```").data) (trimSpace l) = false) :
    identifyProtectedRegions content = [] := by
  unfold identifyProtectedRegions
  rw [hsplit]
  simp only [scanLines, hf, Bool.not_false, Bool.and_true, if_true]
  rw [scanLines_inCB _ _ _ _ _ _ _ hrest]
  rfl

theorem comment_scan_protects (content l0 : List Char) (rest : List (List Char))
    (hsplit : splitNl content = l0 :: rest)
    (hf0 : listLeads (("```").data) (trimSpace l0) = false)
    (ho : containsSub l0 (("<!--").data) = true)
    (hc0 : containsSub l0 (("-->").data) = false)
    (hrest : ∀ l ∈ rest, listLeads (("```").data) (trimSpace l) = false ∧
      containsSub l (("-->").data) = false) :
    ∀ (i : Nat) (li : List Char), (splitNl content)[i]? = some li →
      ∃ r ∈ identifyProtectedRegions content,
        r.start ≤ lineStartPos (splitNl content) i ∧
          lineStartPos (splitNl content) i + byteLen li ≤ r.stop := by
  intro i li hli
  unfold identifyProtectedRegions
  rw [hsplit] at hli ⊢
  obtain ⟨pre, inHS2, cm2, hg2, heq⟩ :=
    scanLines_cons_open l0 rest 0 false false 0 0 0 hf0 hc0 (Or.inr ho)
  rw [heq]
  cases i with
  | zero =>
    rw [List.getElem?_cons_zero] at hli
    cases Option.some.inj hli
    refine ⟨{ start := 0, stop := 0 + byteLen l0, regionType := "html_comment" }, ?_, ?_, ?_⟩
    · rw [mem_sortByStart]
      exact List.mem_append.mpr (Or.inr (List.mem_cons_self _ _))
    · simp [lineStartPos]
    · simp [lineStartPos]
  | succ j =>
    rw [List.getElem?_cons_succ] at hli
    obtain ⟨r, hmem, hlo, hhi⟩ :=
      scanLines_open_comment rest (0 + byteLen l0 + 1) inHS2 0 cm2 hg2 hrest j li hli
    have harith : lineStartPos (l0 :: rest) (j + 1) =
        0 + byteLen l0 + 1 + lineStartPos rest j := by
      simp only [lineStartPos]; omega
    refine ⟨r, ?_, ?_, ?_⟩
    · rw [mem_sortByStart]
      exact List.mem_append.mpr (Or.inr (List.mem_cons_of_mem _ hmem))
    · rw [harith]; exact hlo
    · rw [harith]; exact hhi

/-! ## Lemmas: wholly protected lines are left alone by each rule -/

theorem spacingOne_protected {regions : List protectedRegion} {pos : Nat} {line : List Char}
    (h : lineIsProtected regions pos (pos + byteLen line) = true) :
    spacingOne regions pos line = line := by
  simp [spacingOne, h]

theorem punctOne_protected {order : List (Char × Char)} {regions : List protectedRegion}
    {pos : Nat} {line : List Char}
    (h : lineIsProtected regions pos (pos + byteLen line) = true) :
    punctOne order regions pos line = line := by
  simp [punctOne, h]

theorem lineBreakOne_protected {regions : List protectedRegion} {pos : Nat} {line : List Char}
    (h : lineIsProtected regions pos (pos + byteLen line) = true) :
    lineBreakOne regions pos line = [line] := by
  simp [lineBreakOne, h]

theorem punctOne_no_cjk {order : List (Char × Char)} {regions : List protectedRegion}
    {pos : Nat} {line : List Char} (h : lineHasCjk line = false) :
    punctOne order regions pos line = line := by
  simp [punctOne, h]

theorem punctOne_yaml {order : List (Char × Char)} {regions : List protectedRegion}
    {pos : Nat} {line : List Char} (h : yamlSkip line = true) :
    punctOne order regions pos line = line := by
  simp [punctOne, h]

theorem cjk_in_claim_range {c : Char} (h : inCjkRange c = true) :
    0x4e00 ≤ c.toNat ∧ c.toNat ≤ 0x9fff := by
  simp only [inCjkRange, Bool.and_eq_true, decide_eq_true_eq] at h
  omega

/-! ## The claims -/

/-- Claim C1, counterexample.  The claim says every byte inside any
returned `ProtectedRegion` is left unchanged by every rule, including
when the region covers only part of a line.  In `` a`今b`c `` the inline
code span gives the region `[1,7)`; byte 5 (the `b`) lies inside it, the
line is only partially covered, and the spacing rule inserts a space
before it, changing the byte at position 5. -/
theorem C1_counterexample :
    isPositionProtected 5 (identifyProtectedRegions cexInline) = true ∧
    (textBytes (applySpacingRuleWithProtection cexInline
      (identifyProtectedRegions cexInline)).1)[5]? ≠ (textBytes cexInline)[5]? := by
  decide

/-- Claim C1, amended.  A position is guaranteed untouched only when a
single region contains the whole line around it: such a line is emitted
unchanged at its index by the spacing and punctuation rules, and the
linebreak rule never splits it (it reappears intact among the output
lines).  A region covering only part of a line gives no guarantee (see
the counterexample). -/
theorem C1_theorem (content : List Char) (regions : List protectedRegion) (i : Nat)
    (li : List Char) (hline : (splitNl content)[i]? = some li)
    (hprot : lineIsProtected regions (lineStartPos (splitNl content) i)
      (lineStartPos (splitNl content) i + byteLen li) = true) :
    (splitNl (applySpacingRuleWithProtection content regions).1)[i]? = some li ∧
    (splitNl (applyPunctuationRuleWithProtection content regions).1)[i]? = some li ∧
    li ∈ splitNl (applyLineBreakRuleWithProtection content regions).1 := by
  have hp0 : lineIsProtected regions (0 + lineStartPos (splitNl content) i)
      (0 + lineStartPos (splitNl content) i + byteLen li) = true := by
    rw [Nat.zero_add]; exact hprot
  refine ⟨?_, ?_, ?_⟩
  · rw [splitNl_applySpacing, mapLinesPos_get, hline]
    simp [spacingOne_protected hp0, spacingOne_protected hprot]
  · rw [splitNl_applyPunctuation, mapLinesPos_get, hline]
    simp [punctOne_protected hp0, punctOne_protected hprot]
  · rw [splitNl_applyLineBreak]
    apply List.mem_flatten.mpr
    have hg := mapLinesPos_get (lineBreakOne regions) (splitNl content) 0 i
    rw [hline] at hg
    simp only [Option.map] at hg
    rw [lineBreakOne_protected hp0] at hg
    exact ⟨[li], List.getElem?_mem hg, List.mem_singleton.mpr rfl⟩

set_option maxRecDepth 100000 in
/-- Claim C1, witness: the middle line of a closed code fence is wholly
protected and survives all three rules. -/
theorem C1_witness :
    (splitNl (applySpacingRuleWithProtection cexFenced
      (identifyProtectedRegions cexFenced)).1)[1]? = some (("a今b,c:d").data) ∧
    (splitNl (applyPunctuationRuleWithProtection cexFenced
      (identifyProtectedRegions cexFenced)).1)[1]? = some (("a今b,c:d").data) ∧
    ("a今b,c:d").data ∈ splitNl (applyLineBreakRuleWithProtection cexFenced
      (identifyProtectedRegions cexFenced)).1 :=
  C1_theorem cexFenced (identifyProtectedRegions cexFenced) 1 (("a今b,c:d").data)
    (by decide) (by decide)

set_option maxRecDepth 100000 in
/-- Claim C2, counterexample.  The pipeline is not idempotent: in
`cexTwice` the line-wide `12:30` pattern suppresses colon conversion on
the first pass; the linebreak rule then moves `注意:` onto its own line,
and the second pass converts that colon. -/
theorem C2_counterexample :
    (applyFormattingRules (applyFormattingRules cexTwice []).1 []).1 ≠
      (applyFormattingRules cexTwice []).1 := by
  decide

/-- Claim C2, amended.  Running the pipeline twice is not a no-op in
general (see the counterexample).  What does hold: a pass that records
no changes returns the text verbatim, so any text on which the first
pass reports no changes is a fixpoint and the pipeline is idempotent on
it. -/
theorem C2_theorem (content : List Char) (rules : List String)
    (h : (applyFormattingRules content rules).2 = []) :
    (applyFormattingRules content rules).1 = content ∧
    applyFormattingRules ((applyFormattingRules content rules).1) rules =
      applyFormattingRules content rules := by
  have h1 : (applyFormattingRules content rules).1 = content := by
    simp only [applyFormattingRules] at h ⊢
    exact foldl_ruleStep_nil _ _ _ h
  exact ⟨h1, by rw [h1]⟩

set_option maxRecDepth 100000 in
/-- Claim C2, witness: a text the default pipeline does not change. -/
theorem C2_witness :
    (applyFormattingRules (("ok").data) []).1 = ("ok").data ∧
    applyFormattingRules ((applyFormattingRules (("ok").data) []).1) [] =
      applyFormattingRules (("ok").data) [] :=
  C2_theorem (("ok").data) [] (by decide)

set_option maxRecDepth 100000 in
/-- Claim C3, counterexample.  An unterminated triple-backtick fence does
NOT protect the rest of the document: the scanner emits no region at all
for `"```\n今a"`, and the spacing rule then rewrites the second line. -/
theorem C3_counterexample :
    identifyProtectedRegions cexFence = [] ∧
    (applySpacingRuleWithProtection cexFence (identifyProtectedRegions cexFence)).1 ≠
      cexFence := by
  decide

/-- Claim C3, amended.  Unterminated HTML-comment openers do protect
every line from the opener through the end of the document (each such
line is wholly covered by an emitted region), and this is not an error;
but an unterminated code fence emits no region at all, leaving the
remainder unprotected. -/
theorem C3_theorem :
    (∀ (content l0 : List Char) (rest : List (List Char)),
      splitNl content = l0 :: rest →
      listLeads (("```").data) (trimSpace l0) = false →
      containsSub l0 (("<!--").data) = true →
      containsSub l0 (("-->").data) = false →
      (∀ l ∈ rest, listLeads (("```").data) (trimSpace l) = false ∧
        containsSub l (("-->").data) = false) →
      ∀ (i : Nat) (li : List Char), (splitNl content)[i]? = some li →
        ∃ r ∈ identifyProtectedRegions content,
          r.start ≤ lineStartPos (splitNl content) i ∧
            lineStartPos (splitNl content) i + byteLen li ≤ r.stop) ∧
    (∀ (content f0 : List Char) (rest : List (List Char)),
      splitNl content = f0 :: rest →
      listLeads (("```").data) (trimSpace f0) = true →
      (∀ l ∈ rest, listLeads (("```").data) (trimSpace l) = false) →
      identifyProtectedRegions content = []) :=
  ⟨comment_scan_protects, fence_scan_nil⟩

set_option maxRecDepth 100000 in
/-- Claim C3, witness: a line after an unterminated `<!--` is wholly
covered by a region; an unterminated fence yields no regions. -/
theorem C3_witness :
    (∃ r ∈ identifyProtectedRegions (("<!--\n今a").data),
      r.start ≤ lineStartPos (splitNl (("<!--\n今a").data)) 1 ∧
        lineStartPos (splitNl (("<!--\n今a").data)) 1 + byteLen (("今a").data) ≤ r.stop) ∧
    identifyProtectedRegions (("```\nabc").data) = [] :=
  ⟨C3_theorem.1 (("<!--\n今a").data) (("<!--").data) [("今a").data] (by decide) (by decide)
      (by decide) (by decide) (by decide) 1 (("今a").data) (by decide),
    C3_theorem.2 (("```\nabc").data) (("```").data) [("abc").data] (by decide) (by decide)
      (by decide)⟩

set_option maxRecDepth 100000 in
/-- Claim C4, counterexample.  The engine does not reorder the caller's
selection into canonical order: on a 120-code-point line ending in a CJK
ideograph, `["linebreaks", "spacing"]` (no split: the line only exceeds
120 after spacing) differs from `["spacing", "linebreaks"]` (split). -/
theorem C4_counterexample :
    applyFormattingRules cexOrder ["linebreaks", "spacing"] ≠
      applyFormattingRules cexOrder ["spacing", "linebreaks"] := by
  decide

/-- Claim C4, amended.  The engine applies the selected rules in the
order the caller listed them (here: `["linebreaks","spacing"]` runs the
linebreak rule first, then spacing, always against the regions of the
original content); an empty selection defaults to exactly
`[spacing, punctuation, linebreaks]`. -/
theorem C4_theorem (content : List Char) :
    applyFormattingRules content [] =
      applyFormattingRules content ["spacing", "punctuation", "linebreaks"] ∧
    (applyFormattingRules content ["linebreaks", "spacing"]).1 =
      (applySpacingRuleWithProtection
        (applyLineBreakRuleWithProtection content (identifyProtectedRegions content)).1
        (identifyProtectedRegions content)).1 :=
  ⟨rfl, rfl⟩

set_option maxRecDepth 100000 in
/-- Claim C5, counterexample.  On the 130-code-point all-ASCII line with
its only space at index 95, the break does NOT occur after that space:
the byte window searched for a space is `[40, 80]`, which excludes index
95, so the line is force-broken at 80 and the space survives inside the
second line. -/
theorem C5_counterexample :
    smartLineBreak cexBreak 120 80 =
      [List.replicate 80 'a', List.replicate 15 'a' ++ ' ' :: List.replicate 34 'b'] ∧
    smartLineBreak cexBreak 120 80 ≠
      [List.replicate 95 'a' ++ [' '], List.replicate 34 'b'] ∧
    smartLineBreak cexBreak 120 80 ≠ [List.replicate 95 'a', List.replicate 34 'b'] := by
  decide

set_option maxRecDepth 100000 in
/-- Claim C5, amended.  That line splits into exactly two lines, neither
exceeding 120 code points, but the break is the forced one at the
preferred length 80 (the space at index 95 lies outside the `[40, 80]`
search window and ends up inside the second line). -/
theorem C5_theorem :
    smartLineBreak cexBreak 120 80 =
      [List.replicate 80 'a', List.replicate 15 'a' ++ ' ' :: List.replicate 34 'b'] ∧
    (smartLineBreak cexBreak 120 80).length = 2 ∧
    (smartLineBreak cexBreak 120 80).all (fun l => l.length ≤ 120) = true ∧
    findBestBreakPoint cexBreak 80 120 = 80 := by
  decide

set_option maxRecDepth 100000 in
/-- Claim C6, counterexample.  U+9FFF is a CJK ideograph by the claim's
range (and by `isChinese`), yet the spacing regexes use `[一-龯]` =
U+4E00..U+9FAF, so `"鿿a"` gets no space inserted. -/
theorem C6_counterexample :
    isChinese (Char.ofNat 0x9fff) = true ∧ isAsciiAlnum 'a' = true ∧
    applySpacingRuleWithProtection cexWideCjk [] = (cexWideCjk, []) ∧
    (applySpacingRuleWithProtection cexWideCjk []).1 ≠
      [Char.ofNat 0x9fff, ' ', 'a'] := by
  decide

set_option maxRecDepth 100000 in
/-- Claim C6, amended.  With the range corrected to U+4E00..U+9FAF (the
class `[一-龯]` the code actually uses), the spacing transformation of a
line is exactly the single pass that inserts one space at each boundary
between a ranged ideograph and an ASCII alphanumeric, in either
direction; it is idempotent (never doubles an existing space), and the
worked examples behave as stated. -/
theorem C6_theorem :
    (∀ l, spacingLine l = specInsertSpaces l) ∧
    (∀ l, spacingLine (spacingLine l) = spacingLine l) ∧
    applySpacingRuleWithProtection (("今天weather很好").data) [] =
      (("今天 weather 很好").data,
        [{ line := 1, rule := "spacing",
           description := "Added space between Chinese and English text",
           before := ("今天weather很好").data, after := ("今天 weather 很好").data }]) ∧
    applySpacingRuleWithProtection (("今天 weather 很好").data) [] =
      (("今天 weather 很好").data, []) :=
  ⟨spacingLine_eq_spec, spacingLine_idem, by decide, by decide⟩

/-- Claim C7, confirmed.  The punctuation rule: leaves untouched every
line with no CJK ideograph (U+4E00..U+9FFF), every wholly protected
line, and every line whose trimmed form starts with `---`; never
rewrites `:` on a line containing `://`, a digit:digit pattern, or a
leading `key: ` shape; never rewrites `!` on a line containing `![`,
`<!--`, or a backtick-wrapped `!`; and on an unprotected, non-YAML line
with a `[一-龯]` character it does map `,` to `，`. -/
theorem C7_theorem (content : List Char) (regions : List protectedRegion) (i : Nat)
    (li : List Char) (hline : (splitNl content)[i]? = some li) :
    ((∀ c ∈ li, ¬(0x4e00 ≤ c.toNat ∧ c.toNat ≤ 0x9fff)) →
      (splitNl (applyPunctuationRuleWithProtection content regions).1)[i]? = some li) ∧
    (lineIsProtected regions (lineStartPos (splitNl content) i)
        (lineStartPos (splitNl content) i + byteLen li) = true →
      (splitNl (applyPunctuationRuleWithProtection content regions).1)[i]? = some li) ∧
    (listLeads (("---").data) (trimSpace li) = true →
      (splitNl (applyPunctuationRuleWithProtection content regions).1)[i]? = some li) ∧
    ((containsSub li (("://").data) = true ∨ hasDigitColonDigit li = true ∨
        leadingKeyMatch li = true) →
      ∀ li' : List Char,
        (splitNl (applyPunctuationRuleWithProtection content regions).1)[i]? = some li' →
        ∀ j : Nat, (li'[j]? = some ':') ↔ (li[j]? = some ':')) ∧
    ((containsSub li (("![").data) = true ∨ containsSub li (("<!--").data) = true ∨
        containsSub li (("`!").data) = true ∨ containsSub li (("!`").data) = true) →
      ∀ li' : List Char,
        (splitNl (applyPunctuationRuleWithProtection content regions).1)[i]? = some li' →
        ∀ j : Nat, (li'[j]? = some '!') ↔ (li[j]? = some '!')) ∧
    (lineIsProtected regions (lineStartPos (splitNl content) i)
        (lineStartPos (splitNl content) i + byteLen li) = false →
      yamlSkip li = false → lineHasCjk li = true → containsSub li [','] = true →
      ∀ li' : List Char,
        (splitNl (applyPunctuationRuleWithProtection content regions).1)[i]? = some li' →
        ∀ j : Nat, li[j]? = some ',' → li'[j]? = some '，') := by
  have hget : (splitNl (applyPunctuationRuleWithProtection content regions).1)[i]? =
      some (punctOne punctuationPairs regions
        (0 + lineStartPos (splitNl content) i) li) := by
    rw [splitNl_applyPunctuation, mapLinesPos_get, hline]
    rfl
  refine ⟨?_, ?_, ?_, ?_, ?_, ?_⟩
  · intro hnc
    have hcjk : lineHasCjk li = false := by
      rcases hc : lineHasCjk li with _ | _
      · rfl
      · exfalso
        obtain ⟨c, hcm, hcc⟩ := List.any_eq_true.mp hc
        exact hnc c hcm (cjk_in_claim_range hcc)
    rw [hget, punctOne_no_cjk hcjk]
  · intro hp
    have hp0 : lineIsProtected regions (0 + lineStartPos (splitNl content) i)
        (0 + lineStartPos (splitNl content) i + byteLen li) = true := by
      rw [Nat.zero_add]; exact hp
    rw [hget, punctOne_protected hp0]
  · intro hd
    have hy : yamlSkip li = true := by
      simp only [yamlSkip, hd, Bool.true_or]
    rw [hget, punctOne_yaml hy]
  · intro hexc li' hli' j
    have hcol : colonExcluded li = true := by
      simp only [colonExcluded, Bool.or_eq_true]
      tauto
    rw [hget] at hli'
    cases Option.some.inj hli'
    simp only [punctOne]
    split
    · exact Iff.rfl
    · split
      · exact Iff.rfl
      · split
        · exact punctLine_colon_pos hcol j
        · exact Iff.rfl
  · intro hexc li' hli' j
    have hbang : bangExcluded li = true := by
      simp only [bangExcluded, Bool.or_eq_true]
      tauto
    rw [hget] at hli'
    cases Option.some.inj hli'
    simp only [punctOne]
    split
    · exact Iff.rfl
    · split
      · exact Iff.rfl
      · split
        · exact punctLine_bang_pos hbang j
        · exact Iff.rfl
  · intro hp hy hc hcon li' hli' j hj
    have hp0 : lineIsProtected regions (0 + lineStartPos (splitNl content) i)
        (0 + lineStartPos (splitNl content) i + byteLen li) = false := by
      rw [Nat.zero_add]; exact hp
    rw [hget] at hli'
    cases Option.some.inj hli'
    simp only [punctOne, hp0, Bool.false_eq_true, if_false, hy, hc, if_true]
    exact punctLine_comma_conv hcon hj

set_option maxRecDepth 100000 in
/-- Claim C7, witness: a no-CJK line is untouched, and on a CJK line with
`12:30` the colon survives while the comma converts. -/
theorem C7_witness :
    (splitNl (applyPunctuationRuleWithProtection (("a: b").data) []).1)[0]? =
      some (("a: b").data) ∧
    ∀ li' : List Char,
      (splitNl (applyPunctuationRuleWithProtection (("在12:30,好").data) []).1)[0]? =
        some li' →
      ∀ j : Nat, (li'[j]? = some ':') ↔ ((("在12:30,好").data)[j]? = some ':') :=
  ⟨(C7_theorem (("a: b").data) [] 0 (("a: b").data) (by decide)).1 (by decide),
    (C7_theorem (("在12:30,好").data) [] 0 (("在12:30,好").data) (by decide)).2.2.2.1
      (Or.inr (Or.inl (by decide)))⟩

set_option maxRecDepth 100000 in
/-- Claim C8, counterexample.  A long line containing the complete,
internally balanced link `[a](b)` but one extra `]` elsewhere has
unequal whole-line bracket counts, is not skipped, and is split. -/
theorem C8_counterexample :
    containsSub cexLink (("[a](b)").data) = true ∧
    (applyLineBreakRuleWithProtection cexLink []).1 ≠ cexLink := by
  decide

/-- Claim C8, amended.  The linebreak rule never splits a line that
contains `](` with equal whole-line counts of `[` and `]` (the code's
notion of a complete link), nor a line containing `http://` or
`https://`: such a line is skipped and reappears unchanged. -/
theorem C8_theorem (content : List Char) (regions : List protectedRegion) (line : List Char)
    (hmem : line ∈ splitNl content)
    (hcond : (containsSub line (("](").data) = true ∧ line.count '[' = line.count ']') ∨
      containsSub line (("http://").data) = true ∨
      containsSub line (("https://").data) = true) :
    shouldSkipLineBreaking line = true ∧
    line ∈ splitNl (applyLineBreakRuleWithProtection content regions).1 := by
  have hskip : shouldSkipLineBreaking line = true := by
    simp only [shouldSkipLineBreaking]
    rcases hcond with ⟨h1, h2⟩ | h | h
    · simp [h1, h2]
    · simp [h]
    · simp [h]
  refine ⟨hskip, ?_⟩
  rw [splitNl_applyLineBreak]
  apply List.mem_flatten.mpr
  obtain ⟨p, hp⟩ := mem_mapLinesPos_of_mem (lineBreakOne regions) 0 hmem
  rw [lineBreakOne_skip hskip] at hp
  exact ⟨[line], hp, List.mem_singleton.mpr rfl⟩

set_option maxRecDepth 100000 in
/-- Claim C8, witness: a short text whose only line holds a complete
balanced link is skipped and survives. -/
theorem C8_witness :
    shouldSkipLineBreaking (("see [a](b) ok").data) = true ∧
    ("see [a](b) ok").data ∈
      splitNl (applyLineBreakRuleWithProtection (("see [a](b) ok").data) []).1 :=
  C8_theorem (("see [a](b) ok").data) [] (("see [a](b) ok").data) (by decide)
    (Or.inl (by decide))

/-- Claim C9, confirmed.  A line of at most 120 code points is never
rewritten by the linebreak rule: if every line is at most 120 the rule
returns the text byte-identical with no change records, and any
individual line of at most 120 code points reappears unchanged among the
output lines (the preferred threshold 80 alone never triggers a
split). -/
theorem C9_theorem (content : List Char) (regions : List protectedRegion) :
    ((∀ l ∈ splitNl content, l.length ≤ 120) →
      applyLineBreakRuleWithProtection content regions = (content, [])) ∧
    (∀ line ∈ splitNl content, line.length ≤ 120 →
      line ∈ splitNl (applyLineBreakRuleWithProtection content regions).1) := by
  constructor
  · intro h
    show (joinNl (lineBreakLoop regions (splitNl content) 0 0).1,
      (lineBreakLoop regions (splitNl content) 0 0).2) = (content, [])
    rw [lineBreakLoop_short_eq regions _ 0 0 h]
    rw [joinNl_splitNl]
  · intro line hmem hlen
    rw [splitNl_applyLineBreak]
    apply List.mem_flatten.mpr
    obtain ⟨p, hp⟩ := mem_mapLinesPos_of_mem (lineBreakOne regions) 0 hmem
    rw [lineBreakOne_short hlen] at hp
    exact ⟨[line], hp, List.mem_singleton.mpr rfl⟩

set_option maxRecDepth 100000 in
/-- Claim C9, witness: a two-line text with lines of 100 and 3 code
points (both over none or one threshold) is returned unchanged. -/
theorem C9_witness :
    applyLineBreakRuleWithProtection
        (List.replicate 100 'a' ++ '\n' :: ("今天b").data) [] =
      (List.replicate 100 'a' ++ '\n' :: ("今天b").data, []) :=
  (C9_theorem (List.replicate 100 'a' ++ '\n' :: ("今天b").data) []).1 (by decide)

/-- Claim C10, confirmed.  The punctuation rule is deterministic in the
Go map iteration order: any permutation of the five (half-width,
full-width) pairs produces the same output text and change list, because
no mark's guard patterns or full-width image involve another mark. -/
theorem C10_theorem (order : List (Char × Char)) (h : order.Perm punctuationPairs)
    (content : List Char) (regions : List protectedRegion) :
    applyPunctuationRuleWithProtectionOrd order content regions =
      applyPunctuationRuleWithProtection content regions :=
  applyPunctuationOrd_perm h content regions

set_option maxRecDepth 100000 in
/-- Claim C10, witness: the fully reversed iteration order gives the same
result on a line exercising all five marks. -/
theorem C10_witness :
    applyPunctuationRuleWithProtectionOrd
        [('?', '？'), ('!', '！'), (':', '：'), (';', '；'), (',', '，')]
        (("接口,测试:值!好?嗯;行").data) [] =
      applyPunctuationRuleWithProtection (("接口,测试:值!好?嗯;行").data) [] :=
  C10_theorem [('?', '？'), ('!', '！'), (':', '：'), (';', '；'), (',', '，')]
    (by decide) (("接口,测试:值!好?嗯;行").data) []

end MM
